import Mathlib

/-!
Verification development for the Grok batch-translation scripts
(`2_Trans_JP_to_ZH_grok-4-fast-reasoning.py` and
`6_Trans_EN_to_ZH_grok-4-fast-reasoning.py`).

Strings are modelled as `List Char`.  The Python regular expressions that the
scripts rely on are small enough that their exact matching semantics
(leftmost match, greedy quantifiers over single-character classes, optional
groups) are reproduced by direct scanning functions below.  Scanning
functions that advance by a whole match use an explicit fuel argument equal
to the length of the scanned string; every step consumes at least one
character, so the fuel never runs out.
-/

namespace Spec2Proof

abbrev Str := List Char

/-- The apostrophe character (U+0027). -/
def apos : Char := Char.ofNat 39

/-- The two quote characters accepted by the tolerant pattern `["\x27]`. -/
def isQuote (c : Char) : Bool := c = '"' || c = apos

/-- Python's `\s` character class for `str` patterns. -/
def isPySpace (c : Char) : Bool :=
  c = ' ' || c = '\t' || c = '\n' || c = '\r' ||
  c.toNat = 11 || c.toNat = 12 ||
  c.toNat = 28 || c.toNat = 29 || c.toNat = 30 || c.toNat = 31 ||
  c.toNat = 133 || c.toNat = 160 || c.toNat = 5760 ||
  (8192 ≤ c.toNat && c.toNat ≤ 8202) || c.toNat = 8232 || c.toNat = 8233 ||
  c.toNat = 8239 || c.toNat = 8287 || c.toNat = 12288

/-- ASCII decimal digit (`\d` as used on the ASCII inputs of the scripts). -/
def isAsciiDigit (c : Char) : Bool := '0' ≤ c && c ≤ '9'

/-- ASCII letter, any case (`[a-zA-Z]`). -/
def isAsciiAlpha (c : Char) : Bool :=
  ('a' ≤ c && c ≤ 'z') || ('A' ≤ c && c ≤ 'Z')

/-- ASCII lowercase letter (`[a-z]`). -/
def isAsciiLower (c : Char) : Bool := 'a' ≤ c && c ≤ 'z'

/-- ASCII case folding, used to model `re.IGNORECASE`. -/
def lowerChar (c : Char) : Char :=
  if 65 ≤ c.toNat && c.toNat ≤ 90 then Char.ofNat (c.toNat + 32) else c

/-- Case-insensitive character comparison. -/
def ciEq (a b : Char) : Bool := lowerChar a = lowerChar b

/-- Python `str.strip()`: remove leading and trailing whitespace. -/
def pyStrip (s : Str) : Str :=
  ((s.dropWhile isPySpace).reverse.dropWhile isPySpace).reverse

/-- Does `s` contain a run of at least `n` consecutive characters satisfying
`p` (models a search for `[class]{n,}`)? -/
def hasRun (p : Char → Bool) (n : Nat) : Str → Bool
  | [] => false
  | c :: rest => (n ≤ ((c :: rest).takeWhile p).length) || hasRun p n rest

/-- Case-insensitive `startsWith` for the refusal-phrase search. -/
def ciStarts : Str → Str → Bool
  | [], _ => true
  | _ :: _, [] => false
  | p :: ps, c :: cs => ciEq p c && ciStarts ps cs

/-- Case-insensitive substring search (models `re.search` on a pattern that
is a plain literal, under `re.IGNORECASE`). -/
def ciSearch (pat : Str) : Str → Bool
  | [] => ciStarts pat []
  | c :: rest => ciStarts pat (c :: rest) || ciSearch pat rest

/-- Case-sensitive `startsWith`. -/
def litStarts : Str → Str → Bool
  | [], _ => true
  | _ :: _, [] => false
  | p :: ps, c :: cs => p = c && litStarts ps cs

/-- Plain substring search (Python's `x in s`). -/
def subSearch (pat : Str) : Str → Bool
  | [] => litStarts pat []
  | c :: rest => litStarts pat (c :: rest) || subSearch pat rest

/-! ### URL / e-mail removal

The scripts delete matches of `https?://[^\s]+`, `www\.[^\s]+` and
`[a-zA-Z0-9._%+-]+@[a-zA-Z0-9.-]+\.[a-zA-Z]{2,}` before looking for
alphabetic runs.  Each removal is a left-to-right non-overlapping scan; each
scanning step consumes at least one character, so fuel `s.length` is enough.
-/

/-- One scanning step of `re.sub(r'https?://[^\s]+', '', s)`. -/
def removeHttpF : Nat → Str → Str
  | 0, s => s
  | _ + 1, [] => []
  | fuel + 1, c :: rest =>
    let s := c :: rest
    if litStarts "https://".data s then
      let body := (s.drop 8).takeWhile (fun d => !isPySpace d)
      if body.isEmpty then c :: removeHttpF fuel rest
      else removeHttpF fuel ((s.drop 8).drop body.length)
    else if litStarts "http://".data s then
      let body := (s.drop 7).takeWhile (fun d => !isPySpace d)
      if body.isEmpty then c :: removeHttpF fuel rest
      else removeHttpF fuel ((s.drop 7).drop body.length)
    else c :: removeHttpF fuel rest

def removeHttp (s : Str) : Str := removeHttpF s.length s

/-- `re.sub(r'www\.[^\s]+', '', s)`. -/
def removeWwwF : Nat → Str → Str
  | 0, s => s
  | _ + 1, [] => []
  | fuel + 1, c :: rest =>
    let s := c :: rest
    if litStarts "www.".data s then
      let body := (s.drop 4).takeWhile (fun d => !isPySpace d)
      if body.isEmpty then c :: removeWwwF fuel rest
      else removeWwwF fuel ((s.drop 4).drop body.length)
    else c :: removeWwwF fuel rest

def removeWww (s : Str) : Str := removeWwwF s.length s

/-- Character class `[a-zA-Z0-9._%+-]` (local part of the e-mail pattern). -/
def isEmailLocal (c : Char) : Bool :=
  isAsciiAlpha c || isAsciiDigit c || c = '.' || c = '_' || c = '%' || c = '+' || c = '-'

/-- Character class `[a-zA-Z0-9.-]` (domain part of the e-mail pattern). -/
def isEmailDomain (c : Char) : Bool :=
  isAsciiAlpha c || isAsciiDigit c || c = '.' || c = '-'

/-- Greedy backtracking step of `[a-zA-Z0-9.-]+\.[a-zA-Z]{2,}` over the
maximal domain-class run `M`: find the largest index `k ≥ 1` with
`M[k] = '.'` followed by at least two letters, returning the length of the
whole consumed piece (`k + 1 +` length of the greedy letter run). -/
def emailDomainSplit (M : Str) : Nat → Option Nat
  | 0 => none
  | j + 1 =>
    if M.getD (j + 1) ' ' = '.' then
      let L := (M.drop (j + 2)).takeWhile isAsciiAlpha
      if 2 ≤ L.length then some (j + 2 + L.length) else emailDomainSplit M j
    else emailDomainSplit M j

/-- Try to match the e-mail pattern at the head of `s`; return the length of
the match. -/
def emailMatchLen (s : Str) : Option Nat :=
  let local_ := s.takeWhile isEmailLocal
  if local_.isEmpty then none
  else
    match s.drop local_.length with
    | '@' :: afterAt =>
      let M := afterAt.takeWhile isEmailDomain
      match emailDomainSplit M (M.length - 1) with
      | some used => some (local_.length + 1 + used)
      | none => none
    | _ => none

/-- `re.sub` of the e-mail pattern. -/
def removeEmailsF : Nat → Str → Str
  | 0, s => s
  | _ + 1, [] => []
  | fuel + 1, c :: rest =>
    match emailMatchLen (c :: rest) with
    | some len => removeEmailsF fuel ((c :: rest).drop len)
    | none => c :: removeEmailsF fuel rest

def removeEmails (s : Str) : Str := removeEmailsF s.length s

/-! ### Language classifiers (`TranslationBatchProcessor` methods) -/

/-- Hiragana or katakana (`[぀-ゟ゠-ヿ]`). -/
def isKana (c : Char) : Bool :=
  (0x3040 ≤ c.toNat && c.toNat ≤ 0x309F) || (0x30A0 ≤ c.toNat && c.toNat ≤ 0x30FF)

/-- CJK unified ideograph (`[一-鿿]`). -/
def isCJK (c : Char) : Bool := 0x4E00 ≤ c.toNat && c.toNat ≤ 0x9FFF

/-- `is_japanese`: does the text contain hiragana, katakana or an ideograph? -/
def is_japanese (s : Str) : Bool := s.any (fun c => isKana c || isCJK c)

/-- `contains_japanese`: hiragana or katakana only. -/
def contains_japanese (s : Str) : Bool := s.any isKana

/-- The class removed by `is_pure_chinese` before the all-ideograph test:
whitespace, CJK punctuation `　-〿`, and fullwidth forms
`＀-￯`. -/
def isPureChineseDropped (c : Char) : Bool :=
  isPySpace c || (0x3000 ≤ c.toNat && c.toNat ≤ 0x303F) ||
    (0xFF00 ≤ c.toNat && c.toNat ≤ 0xFFEF)

/-- `is_pure_chinese`. -/
def is_pure_chinese (s : Str) : Bool :=
  let cleaned := s.filter (fun c => !isPureChineseDropped c)
  !cleaned.isEmpty && cleaned.all isCJK

/-- `has_english_or_japanese` (validation of the JP→ZH target text). -/
def has_english_or_japanese (s : Str) : Bool :=
  if s.any isKana then true
  else hasRun isAsciiAlpha 2 (removeEmails (removeHttp s))

/-- `has_english` (validation of the EN→ZH target text, script 6). -/
def has_english (s : Str) : Bool :=
  hasRun isAsciiAlpha 2 (removeEmails (removeHttp s))

/-- `contains_english` of script 2: strips URLs, `www.` hosts and e-mail
addresses, then searches `[a-z]{3,}`. -/
def contains_english (s : Str) : Bool :=
  hasRun isAsciiLower 3 (removeEmails (removeWww (removeHttp s)))

/-- `contains_english` of script 6 (same stripping, `[a-zA-Z]{3,}`). -/
def contains_english_en (s : Str) : Bool :=
  hasRun isAsciiAlpha 3 (removeEmails (removeWww (removeHttp s)))

/-! ### `extract_text_from_tags` (`re.search(r'<p[^>]*>(.*?)</p>', line, re.DOTALL)`) -/

/-- Text up to the first (case-sensitive) `</p>`; `none` when absent. -/
def contentUntilClose : Str → Option Str
  | [] => none
  | c :: rest =>
    if litStarts "</p>".data (c :: rest) then some []
    else (contentUntilClose rest).map (c :: ·)

/-- `extract_text_from_tags`: group 1 of the first full match, else `""`. -/
def extract_text_from_tags : Str → Str
  | [] => []
  | c :: rest =>
    if litStarts "<p".data (c :: rest) then
      let t := rest.drop 1
      match t.dropWhile (· ≠ '>') with
      | _ :: u =>
        match contentUntilClose u with
        | some content => content
        | none => extract_text_from_tags rest
      | [] => extract_text_from_tags rest
    else extract_text_from_tags rest

/-- `needs_translation` of script 2 (Japanese or lowercase-English payload). -/
def needs_translation (line : Str) : Bool :=
  let t := extract_text_from_tags line
  if t.isEmpty || (pyStrip t).isEmpty then false
  else contains_japanese t || contains_english t

/-! ### `DATA_LINE_ATTR_PATTERN` and `normalize_data_line_attribute`

The pattern is
`data-line\s*=\s*(?:\\?["\x27])?(?P<line>\d+)(?:\\?["\x27])?` with
`re.IGNORECASE`.  `matchAt` runs it anchored at the head of the string,
returning the captured digit run and the unconsumed remainder.
-/

/-- The literal `data-line` head of the pattern. -/
def litDataLine : Str := ['d', 'a', 't', 'a', '-', 'l', 'i', 'n', 'e']

/-- Consume a case-insensitive literal. -/
def matchLit : Str → Str → Option Str
  | [], s => some s
  | _ :: _, [] => none
  | p :: ps, c :: cs => if ciEq p c then matchLit ps cs else none

/-- Consume `(?:\\?["\x27])?`: an optional quote, itself optionally preceded
by a backslash (`\\?` binds the backslash only when a quote follows it). -/
def dropOptQuote : Str → Str
  | [] => []
  | [c] => if isQuote c then [] else [c]
  | c :: c2 :: rest2 =>
    if c = '\\' then (if isQuote c2 then rest2 else c :: c2 :: rest2)
    else if isQuote c then c2 :: rest2 else c :: c2 :: rest2

/-- Run `DATA_LINE_ATTR_PATTERN` anchored at the head of `s`. -/
def matchAt (s : Str) : Option (Str × Str) :=
  match matchLit litDataLine s with
  | none => none
  | some s1 =>
    match s1.dropWhile isPySpace with
    | [] => none
    | e :: s3 =>
      if e = '=' then
        let s5 := dropOptQuote (s3.dropWhile isPySpace)
        let d := s5.takeWhile isAsciiDigit
        if d.isEmpty then none
        else some (d, dropOptQuote (s5.dropWhile isAsciiDigit))
      else none

/-- Leftmost match of the pattern: the unmatched text before it, the
captured digits, and the remainder after the match. -/
def findMatch : Str → Option (Str × Str × Str)
  | [] => none
  | c :: rest =>
    match matchAt (c :: rest) with
    | some (d, t) => some ([], d, t)
    | none =>
      match findMatch rest with
      | some (p, d, t) => some (c :: p, d, t)
      | none => none

/-- The canonical replacement `data-line="N"`. -/
def canonicalAttr (d : Str) : Str :=
  litDataLine ++ '=' :: '"' :: (d ++ ['"'])

/-- Fueled scan of `DATA_LINE_ATTR_PATTERN.sub`; each match consumes at
least one character, so fuel `s.length` suffices. -/
def normAuxF : Nat → Str → Str
  | 0, s => s
  | fuel + 1, s =>
    match findMatch s with
    | none => s
    | some (p, d, t) => p ++ canonicalAttr d ++ normAuxF fuel t

/-- `normalize_data_line_attribute`. -/
def normalize_data_line_attribute (s : Str) : Str := normAuxF s.length s

/-- First match of `DATA_LINE_ATTR_PATTERN.search`, returning the captured
digits. -/
def searchAttr : Str → Option Str
  | [] => none
  | c :: rest =>
    match matchAt (c :: rest) with
    | some (d, _) => some d
    | none => searchAttr rest

/-- Decimal value of a digit run (`int(...)` on the captured group). -/
def digitsToNat (d : Str) : Nat := d.foldl (fun n c => 10 * n + (c.toNat - 48)) 0

/-- `extract_line_number`: the captured number, or `-1` when the pattern is
absent. -/
def extract_line_number (line : Str) : Int :=
  match searchAttr line with
  | some d => (digitsToNat d : Int)
  | none => -1

/-- `get_translation_lines`: the (index, raw line, identity) triples of the
lines that need translation. -/
def get_translation_lines (lines : List Str) : List (Nat × Str × Int) :=
  (lines.enum.filter (fun p => needs_translation p.2)).map
    (fun p => (p.1, p.2, extract_line_number p.2))

/-! ### `P_TAG_WITH_LINE_PATTERN`

`<p[^>]*data-line\s*=\s*(?:\\?["\x27])?(?P<line>\d+)(?:\\?["\x27])?[^>]*>.*?</p>`
with `re.DOTALL | re.IGNORECASE`.  A match is a `<p` head, whose non-`>`
run must contain the data-line attribute (the greedy first gap binds the
last viable occurrence), the first following `>`, then the lazy body up to
the first case-insensitive `</p>`.
-/

/-- Digits of the last position inside the tag head at which
`DATA_LINE_ATTR_PATTERN` matches (the greedy `[^>]*` backtracks from the
longest gap). -/
def lastAttrDigits : Str → Option Str
  | [] => none
  | c :: rest =>
    match lastAttrDigits rest with
    | some d => some d
    | none => (matchAt (c :: rest)).map Prod.fst

/-- Is the string headed by a case-insensitive `</p>`? -/
def closeHead : Str → Bool
  | c :: r1 :: r2 :: r3 :: _ => c = '<' && r1 = '/' && ciEq 'p' r2 && r3 = '>'
  | _ => false

/-- Split at the first case-insensitive `</p>`: text before it, the four
closing characters as they appear, and the remainder after them. -/
def splitAtCloseCi : Str → Option (Str × Str × Str)
  | [] => none
  | c :: rest =>
    if closeHead (c :: rest) then some ([], (c :: rest).take 4, (c :: rest).drop 4)
    else (splitAtCloseCi rest).map (fun x => (c :: x.1, x.2.1, x.2.2))

/-- Tail of the `P_TAG` match after the tag head: requires a closing `>` for
the head, a viable data-line attribute inside it, and a `</p>` later on. -/
def matchPTagTail (c0 c1 : Char) (H : Str) : Str → Option (Str × Str × Str)
  | [] => none
  | g :: u =>
    match lastAttrDigits H, splitAtCloseCi u with
    | some d, some (content, close, after) =>
      some (d, c0 :: c1 :: (H ++ g :: (content ++ close)), after)
    | _, _ => none

/-- Run `P_TAG_WITH_LINE_PATTERN` anchored at the head of `s`: captured
digits, the full matched text (`match.group(0)`), and the remainder. -/
def matchPTagAt (s : Str) : Option (Str × Str × Str) :=
  match s with
  | c0 :: c1 :: t =>
    if c0 = '<' && ciEq 'p' c1 then
      matchPTagTail c0 c1 (t.takeWhile (· ≠ '>')) (t.dropWhile (· ≠ '>'))
    else none
  | _ => none

/-- Length bound used to justify the scanning fuel. -/
theorem splitAtCloseCi_len {l a cl b : Str}
    (h : splitAtCloseCi l = some (a, cl, b)) : b.length < l.length := by
  induction l generalizing a cl b with
  | nil => simp [splitAtCloseCi] at h
  | cons c rest ih =>
    rw [splitAtCloseCi] at h
    by_cases hc : closeHead (c :: rest)
    · simp only [hc, if_true, Option.some.injEq, Prod.mk.injEq] at h
      obtain ⟨-, -, hb⟩ := h
      subst hb; simp; omega
    · simp only [hc, if_false, Bool.false_eq_true, Option.map_eq_some'] at h
      obtain ⟨⟨x1, x2, x3⟩, hx, hh⟩ := h
      have := @ih x1 x2 x3 hx
      simp only [Prod.mk.injEq] at hh
      obtain ⟨-, -, h3⟩ := hh
      subst h3; simp; omega

theorem matchPTagTail_spec {c0 c1 : Char} {H r d m after : Str}
    (h : matchPTagTail c0 c1 H r = some (d, m, after)) :
    ∃ g u content close aft, r = g :: u ∧ splitAtCloseCi u = some (content, close, aft) ∧
      after = aft ∧ m = c0 :: c1 :: (H ++ g :: (content ++ close)) ∧
      lastAttrDigits H = some d := by
  match r with
  | [] => simp [matchPTagTail] at h
  | g :: u =>
    cases h1 : lastAttrDigits H with
    | none => simp [matchPTagTail, h1] at h
    | some d' =>
      cases h2 : splitAtCloseCi u with
      | none => simp [matchPTagTail, h1, h2] at h
      | some x =>
        obtain ⟨content, close, aft⟩ := x
        rw [matchPTagTail, h1, h2] at h
        simp at h
        obtain ⟨hd, hm, ha⟩ := h
        refine ⟨g, u, content, close, aft, rfl, h2, ha.symm, hm.symm, ?_⟩
        simp [h1, hd]

theorem matchPTagAt_len {s d m after : Str}
    (h : matchPTagAt s = some (d, m, after)) : after.length < s.length := by
  match s with
  | [] => simp [matchPTagAt] at h
  | [c0] => simp [matchPTagAt] at h
  | c0 :: c1 :: t =>
    rw [matchPTagAt] at h
    by_cases hc : c0 = '<' && ciEq 'p' c1
    · simp only [hc, if_true] at h
      obtain ⟨g, u, content, close, aft, hr, hsp, ha, -, -⟩ := matchPTagTail_spec h
      have hlt := splitAtCloseCi_len hsp
      have hu : u.length < t.length + 1 := by
        have hle : (t.dropWhile (· ≠ '>')).length ≤ t.length :=
          (List.dropWhile_sublist _).length_le
        rw [hr] at hle; simp at hle; omega
      subst ha; simp; omega
    · simp [hc] at h

/-- Fueled `finditer` scan for `P_TAG_WITH_LINE_PATTERN`. -/
def parseTagsF : Nat → Str → List (Int × Str)
  | 0, _ => []
  | _ + 1, [] => []
  | fuel + 1, c :: rest =>
    match matchPTagAt (c :: rest) with
    | some (d, m, after) => ((digitsToNat d : Int), m) :: parseTagsF fuel after
    | none => parseTagsF fuel rest

/-- All matches of `P_TAG_WITH_LINE_PATTERN`, in text order, with their
captured line numbers. -/
def parseTags (s : Str) : List (Int × Str) := parseTagsF s.length s

/-- The `line_translation_map` built in `process_file`: each match is
re-normalized and assigned into a dict keyed by its line number. -/
def buildLineMap (content : Str) : List (Int × Str) :=
  (parseTags content).map (fun p => (p.1, normalize_data_line_attribute p.2))

/-- Python dict assignment semantics over an association list: a later
binding for the same key overwrites an earlier one. -/
def lookupLast (l : List (Int × Str)) (n : Int) : Option Str :=
  l.foldl (fun acc p => if p.1 = n then some p.2 else acc) none

/-! ### Glossary entries, validation and merging -/

/-- A `translation_dictionary` entry of script 2: a JSON object that may or
may not carry the `jp` / `zh` keys. -/
structure TransEntry where
  jp : Option Str
  zh : Option Str
deriving DecidableEq

/-- A `sound_dictionary` entry. -/
structure SoundEntry where
  sound_jp : Option Str
  sound_zh : Option Str
deriving DecidableEq

/-- A `translation_dictionary` entry of script 6. -/
structure EnEntry where
  en : Option Str
  zh : Option Str
deriving DecidableEq

/-- `validate_translation_entry` (script 2). -/
def validate_translation_entry (e : TransEntry) : Bool :=
  match e.jp, e.zh with
  | some jp, some zh =>
    let j := pyStrip jp
    let z := pyStrip zh
    !j.isEmpty && !z.isEmpty && is_japanese j && is_pure_chinese z &&
      !has_english_or_japanese z
  | _, _ => false

/-- `validate_sound_entry` (script 2). -/
def validate_sound_entry (e : SoundEntry) : Bool :=
  match e.sound_jp, e.sound_zh with
  | some jp, some zh =>
    let j := pyStrip jp
    let z := pyStrip zh
    !j.isEmpty && !z.isEmpty && is_japanese j && is_pure_chinese z &&
      !has_english_or_japanese z
  | _, _ => false

/-- `validate_translation_entry` (script 6). -/
def validate_translation_entry_en (e : EnEntry) : Bool :=
  match e.en, e.zh with
  | some en, some zh =>
    let a := pyStrip en
    let z := pyStrip zh
    !a.isEmpty && !z.isEmpty && is_pure_chinese z && !has_english z
  | _, _ => false

/-- The common merge loop: walk the incoming list, appending each entry that
is valid and whose (raw) key is not in the accumulated key set. -/
def mergeGo (valid : α → Bool) (key : α → Option Str) : List Str → List α → List α
  | _, [] => []
  | ex, it :: rest =>
    if valid it then
      match key it with
      | some k => if k ∈ ex then mergeGo valid key ex rest
                  else it :: mergeGo valid key (k :: ex) rest
      | none => mergeGo valid key ex rest
    else mergeGo valid key ex rest

/-- `merged = original.copy()` followed by the filtered appends. -/
def mergeKeyed (valid : α → Bool) (key : α → Option Str)
    (original new : List α) : List α :=
  original ++ mergeGo valid key (original.filterMap key) new

/-- `merge_dictionaries` (script 2, keyed by the raw `jp` value). -/
def merge_dictionaries (original new : List TransEntry) : List TransEntry :=
  mergeKeyed validate_translation_entry (fun e => e.jp) original new

/-- `merge_sound_dictionaries` (script 2, keyed by the raw `sound_jp`). -/
def merge_sound_dictionaries (original new : List SoundEntry) : List SoundEntry :=
  mergeKeyed validate_sound_entry (fun e => e.sound_jp) original new

/-- `merge_dictionaries` (script 6, keyed by the raw `en` value). -/
def merge_dictionaries_en (original new : List EnEntry) : List EnEntry :=
  mergeKeyed validate_translation_entry_en (fun e => e.en) original new

/-! ### `select_relevant_translations` (script 2)

`random.sample(remaining, needed)` is modelled by an explicit `sample`
parameter; a run of the script corresponds to some function that picks
`needed` distinct positions of `remaining`.
-/

/-- The stripped source term of an entry. -/
def jpKeyOf (e : TransEntry) : Str := pyStrip (e.jp.getD [])

/-- One step of the first (exact containment) pass. -/
def pass1Step (batchText batchRaw : Str)
    (acc : List TransEntry × List Str) (e : TransEntry) :
    List TransEntry × List Str :=
  if validate_translation_entry e then
    let j := jpKeyOf e
    if j.isEmpty || j ∈ acc.2 then acc
    else if subSearch j batchText || subSearch j batchRaw then
      (acc.1 ++ [e], acc.2 ++ [j])
    else acc
  else acc

/-- The first pass over the whole glossary. -/
def pass1 (batchText batchRaw : Str) (all : List TransEntry) :
    List TransEntry × List Str :=
  all.foldl (pass1Step batchText batchRaw) ([], [])

/-- The candidates of the second pass: valid entries whose term is not yet
used. -/
def pass2Remaining (seen : List Str) (all : List TransEntry) : List TransEntry :=
  all.filter (fun e =>
    validate_translation_entry e && !(jpKeyOf e).isEmpty && !(decide ((jpKeyOf e) ∈ seen)))

/-- The selection made from the two passes, given the joined payload text
and the joined raw markup of the batch. -/
def selectFrom (all : List TransEntry) (target : Nat)
    (sample : List TransEntry → Nat → List TransEntry) (bt br : Str) :
    List TransEntry :=
  let pr := pass1 bt br all
  if pr.1.length < target then
    let remaining := pass2Remaining pr.2 all
    if remaining.isEmpty then pr.1
    else
      let needed := min (target - pr.1.length) remaining.length
      if 0 < needed then pr.1 ++ sample remaining needed else pr.1
  else pr.1

/-- `select_relevant_translations`. -/
def select_relevant_translations (batchLines : List Str) (all : List TransEntry)
    (target : Nat) (sample : List TransEntry → Nat → List TransEntry) :
    List TransEntry :=
  if all.isEmpty then []
  else selectFrom all target sample
    ((batchLines.map extract_text_from_tags).foldr (· ++ ·) [])
    (batchLines.foldr (· ++ ·) [])

/-- The number of distinct source terms among the valid glossary entries. -/
def validCount (all : List TransEntry) : Nat :=
  ((all.filter validate_translation_entry).map jpKeyOf).dedup.length

/-! ### The selector of `create_prompt` (script 6, lines 169–191)

`random.shuffle(remaining)` is a `shuffle` parameter; popping from the end
of the shuffled list until five entries are selected or the pool is empty
appends a prefix of its reverse.  The final `random.choice(valid_entries)`
padding draws WITH replacement; it is a `pick` parameter giving the entry
chosen at each padding step.
-/

/-- The stripped source term of an EN entry. -/
def enKeyOf (e : EnEntry) : Str := pyStrip (e.en.getD [])

/-- `en_lookup = {entry[en].strip(): entry for entry in valid_entries}`:
later entries overwrite earlier ones, so a lookup returns the last valid
entry with the given stripped source term. -/
def enLookup (valid : List EnEntry) (k : Str) : Option EnEntry :=
  valid.reverse.find? (fun e => decide (enKeyOf e = k))

/-- One line of the exact-containment pass of `create_prompt`: look the
stripped payload up and select the entry unless its raw `en` was used. -/
def enPass1Step (valid : List EnEntry) (acc : List EnEntry × List Str)
    (line : Str) : List EnEntry × List Str :=
  let t := pyStrip (extract_text_from_tags line)
  if t.isEmpty then acc
  else
    match enLookup valid t with
    | none => acc
    | some e =>
      if (e.en.getD []) ∈ acc.2 then acc
      else (acc.1 ++ [e], acc.2 ++ [e.en.getD []])

/-- The glossary selection of `create_prompt` (script 6): first pass by
exact payload lookup, then pop from the shuffled remainder up to five, then
pad to five with `random.choice` (with replacement). -/
def create_prompt_selection (lines : List Str) (translation_dict : List EnEntry)
    (shuffle : List EnEntry → List EnEntry)
    (pick : Nat → List EnEntry → EnEntry) : List EnEntry :=
  let valid := translation_dict.filter validate_translation_entry_en
  let pr := lines.foldl (enPass1Step valid) ([], [])
  if pr.1.length < 5 then
    if valid.isEmpty then pr.1
    else
      let remaining := valid.filter (fun e => !(decide ((e.en.getD []) ∈ pr.2)))
      let sel2 := pr.1 ++ (shuffle remaining).reverse.take (5 - pr.1.length)
      sel2 ++ (List.range (5 - sel2.length)).map (fun i => pick i valid)
  else pr.1

/-- The number of distinct source terms among the valid EN glossary
entries. -/
def validCountEn (dict : List EnEntry) : Nat :=
  ((dict.filter validate_translation_entry_en).map enKeyOf).dedup.length

/-! ### Reinsertion (`process_file` lines 703–731 of script 2) -/

/-- The line actually stored on success or on residual-language failure:
normalized and newline-terminated. -/
def finalLine (t : Str) : Str :=
  let t1 := normalize_data_line_attribute t
  if t1.getLast? = some '\n' then t1 else t1 ++ ['\n']

/-- One iteration of the reinsertion loop over `(index, raw line, identity)`
triples; the state carries the document lines and the success/failed
counters. -/
def reinsertStep (lineMap : Int → Option Str)
    (st : List Str × Nat × Nat) (item : Nat × Str × Int) :
    List Str × Nat × Nat :=
  if item.2.2 = -1 then st
  else
    match lineMap item.2.2 with
    | none => (st.1, st.2.1, st.2.2 + 1)
    | some t0 =>
      if (pyStrip (normalize_data_line_attribute t0)).isEmpty then
        (st.1, st.2.1, st.2.2 + 1)
      else
        let t2 := finalLine t0
        let content := extract_text_from_tags t2
        if contains_japanese content || contains_english content then
          (st.1.set item.1 t2, st.2.1, st.2.2 + 1)
        else
          (st.1.set item.1 t2, st.2.1 + 1, st.2.2)

/-- The whole reinsertion loop of one batch. -/
def reinsertBatch (lineMap : Int → Option Str)
    (batch : List (Nat × Str × Int)) (lines : List Str) :
    List Str × Nat × Nat :=
  batch.foldl (reinsertStep lineMap) (lines, 0, 0)

/-- `len([idx for idx in batch_html_nums if idx != -1])`, the failed count
recorded for a refused or transport-failed batch. -/
def batchFailedCount (nums : List Int) : Nat :=
  (nums.filter (fun i => decide (i ≠ -1))).length

/-! ### Refusal detection and the per-batch response handling -/

/-- `is_refusal_response` (script 2): the `[,，]` classes are expanded into
their two alternatives, and the English phrases are searched
case-insensitively. -/
def is_refusal_response (s : Str) : Bool :=
  ciSearch ("抱歉,我無法協助".data) s ||
  ciSearch ("抱歉，我無法協助".data) s ||
  ciSearch ("抱歉,我不能協助".data) s ||
  ciSearch ("抱歉，我不能協助".data) s ||
  ciSearch ("無法協助滿足".data) s ||
  ciSearch ("I cannot assist".data) s ||
  ciSearch ("I".data ++ apos :: "m unable to".data) s ||
  ciSearch ("I can".data ++ apos :: "t help".data) s

/-- Processing of one successfully transported response (script 2, lines
661–740): refusal short-circuits everything; otherwise the response is
parsed, the dictionaries merged, and the batch reinserted.  The response
parser is a parameter: its output is a pair of new dictionaries and the
translated content. -/
def handleResponse (parse : Str → List TransEntry × List SoundEntry × Str)
    (resp : Str) (batch : List (Nat × Str × Int)) (lines : List Str)
    (tdict : List TransEntry) (sdict : List SoundEntry) :
    List TransEntry × List SoundEntry × List Str × Nat × Nat × Bool :=
  if is_refusal_response resp then
    (tdict, sdict, lines, 0, batchFailedCount (batch.map (fun it => it.2.2)), true)
  else
    let parsed := parse resp
    let tdict' := if parsed.1.isEmpty then tdict
                  else merge_dictionaries tdict parsed.1
    let sdict' := if parsed.2.1.isEmpty then sdict
                  else merge_sound_dictionaries sdict parsed.2.1
    let lineMap := lookupLast (buildLineMap parsed.2.2)
    let out := reinsertBatch lineMap batch lines
    (tdict', sdict', out.1, out.2.1, out.2.2, false)

/-! ### `call_grok_api` retry loop -/

/-- The retry loop of `call_grok_api`.  `outcomes k` is the result of the
`k`-th attempt (`none` = exception).  Returns the backoff sleeps performed,
in order, and `some` raw text on success / exhausted-range fallthrough, or
`none` when the final attempt re-raises. -/
def callLoop (outcomes : Nat → Option Str) : Nat → Nat → List Nat × Option Str
  | 0, _ => ([], some [])
  | rem + 1, attempt =>
    let sleeps : List Nat := if 0 < attempt then [2 ^ attempt] else []
    match outcomes attempt with
    | some txt => (sleeps, some txt)
    | none =>
      if rem = 0 then (sleeps, none)
      else
        let r := callLoop outcomes rem (attempt + 1)
        (sleeps ++ r.1, r.2)

/-- `call_grok_api` with `max_retries` attempts. -/
def call_grok_api (outcomes : Nat → Option Str) (maxRetries : Nat) :
    List Nat × Option Str :=
  callLoop outcomes maxRetries 0

/-! ### The per-file state machine of `process_file` -/

/-- What the environment does for one batch: the API call raises after all
retries (`callFail`), something else in the batch body raises
(`batchCrash`), or a raw response comes back (`ok`). -/
inductive BatchEvent
  | ok (resp : Str)
  | callFail
  | batchCrash

/-- Terminal progress-tracker status. -/
inductive PStatus
  | completed
  | failed
  | skipped
deriving DecidableEq

/-- `result['status']` of `process_file` (`'partial'` is modelled by
`someFailed`). -/
inductive RStatus
  | success
  | someFailed
  | failed
  | skipped
deriving DecidableEq

/-- Fueled batch partition (`japanese_lines[start:end]` slices of size
`bs`). -/
def chunksF : Nat → Nat → List α → List (List α)
  | 0, _, _ => []
  | _ + 1, _, [] => []
  | fuel + 1, bs, l => l.take bs :: chunksF fuel bs (l.drop bs)

def chunks (bs : Nat) (l : List α) : List (List α) := chunksF l.length bs l

/-- One batch of the sequential loop: every failure mode is caught inside
the loop and converted to counts. -/
def runBatch (parse : Str → List TransEntry × List SoundEntry × Str)
    (ev : BatchEvent)
    (st : List TransEntry × List SoundEntry × List Str × Nat × Nat)
    (batch : List (Nat × Str × Int)) :
    List TransEntry × List SoundEntry × List Str × Nat × Nat :=
  match ev with
  | .callFail =>
    (st.1, st.2.1, st.2.2.1, st.2.2.2.1,
      st.2.2.2.2 + batchFailedCount (batch.map (fun it => it.2.2)))
  | .batchCrash =>
    (st.1, st.2.1, st.2.2.1, st.2.2.2.1, st.2.2.2.2 + batch.length)
  | .ok resp =>
    let r := handleResponse parse resp batch st.2.2.1 st.1 st.2.1
    (r.1, r.2.1, r.2.2.1, st.2.2.2.1 + r.2.2.2.1, st.2.2.2.2 + r.2.2.2.2.1)

/-- The batch loop. -/
def runBatches (parse : Str → List TransEntry × List SoundEntry × Str)
    (events : Nat → BatchEvent)
    (batches : List (List (Nat × Str × Int)))
    (st : List TransEntry × List SoundEntry × List Str × Nat × Nat) :
    List TransEntry × List SoundEntry × List Str × Nat × Nat :=
  (batches.enum.foldl (fun s p => runBatch parse (events p.1) s p.2) st)

/-- `process_file` as a state machine: `readRes = none` is a read failure
(terminal `failed`); no translatable line is terminal `skipped`; otherwise
the batch loop runs to the end and the file completes. -/
def processFileModel (parse : Str → List TransEntry × List SoundEntry × Str)
    (events : Nat → BatchEvent) (readRes : Option (List Str)) (bs : Nat)
    (tdict : List TransEntry) (sdict : List SoundEntry) :
    PStatus × RStatus × Nat × Nat :=
  match readRes with
  | none => (.failed, .failed, 0, 0)
  | some lines =>
    let tl := get_translation_lines lines
    if tl.length = 0 then (.skipped, .skipped, 0, 0)
    else
      let fin := runBatches parse events (chunks bs tl) (tdict, sdict, lines, 0, 0)
      (.completed, if 0 < fin.2.2.2.2 then .someFailed else .success,
        fin.2.2.2.1, fin.2.2.2.2)

/-! ### Persisting a document (`f.writelines(lines)` / `f.readlines()`) -/

/-- Split a character stream into lines, each keeping its terminating
newline, as `readlines` does. -/
def splitLinesGo (acc : Str) : Str → List Str
  | [] => if acc.isEmpty then [] else [acc.reverse]
  | c :: rest =>
    if c = '\n' then (acc.reverse ++ ['\n']) :: splitLinesGo [] rest
    else splitLinesGo (c :: acc) rest

def splitLines (s : Str) : List Str := splitLinesGo [] s

/-- Number of trailing occurrences of `c`. -/
def trailingCount (c : Char) (l : Str) : Nat :=
  (l.reverse.takeWhile (· = c)).length

/-! ## Claim C1: the merge keeps the original and adds exactly the new valid
unique keys -/

theorem mergeGo_keys (valid : α → Bool) (key : α → Option Str) :
    ∀ (new : List α) (ex : List Str) (k : Str),
      k ∈ (mergeGo valid key ex new).filterMap key ↔
        ∃ e ∈ new, valid e = true ∧ key e = some k ∧ k ∉ ex := by
  intro new
  induction new with
  | nil => intro ex k; simp [mergeGo]
  | cons it rest ih =>
    intro ex k
    rw [mergeGo]
    by_cases hv : valid it
    · simp only [hv, if_true]
      cases hk : key it with
      | none =>
        simp only [ih, List.mem_cons]
        constructor
        · rintro ⟨e, he, h1, h2, h3⟩; exact ⟨e, Or.inr he, h1, h2, h3⟩
        · rintro ⟨e, he | he, h1, h2, h3⟩
          · subst he; rw [hk] at h2; exact absurd h2 (by simp)
          · exact ⟨e, he, h1, h2, h3⟩
      | some k' =>
        by_cases hmem : k' ∈ ex
        · simp only [hmem, if_true, ih, List.mem_cons]
          constructor
          · rintro ⟨e, he, h1, h2, h3⟩; exact ⟨e, Or.inr he, h1, h2, h3⟩
          · rintro ⟨e, he | he, h1, h2, h3⟩
            · subst he; rw [hk] at h2
              cases h2; exact absurd hmem h3
            · exact ⟨e, he, h1, h2, h3⟩
        · simp only [hmem, if_false, List.filterMap_cons, hk, List.mem_cons, ih]
          constructor
          · rintro (hkk | ⟨e, he, h1, h2, h3⟩)
            · subst hkk; exact ⟨it, Or.inl rfl, hv, hk, hmem⟩
            · exact ⟨e, Or.inr he, h1, h2, fun hx => h3 (Or.inr hx)⟩
          · rintro ⟨e, he | he, h1, h2, h3⟩
            · subst he; rw [hk] at h2; cases h2; exact Or.inl rfl
            · by_cases hkk : k = k'
              · exact Or.inl hkk
              · exact Or.inr ⟨e, he, h1, h2, by
                  intro hx
                  rcases hx with h | h
                  · exact hkk h
                  · exact h3 h⟩
    · simp only [hv, Bool.false_eq_true, if_false, ih, List.mem_cons]
      constructor
      · rintro ⟨e, he, h1, h2, h3⟩; exact ⟨e, Or.inr he, h1, h2, h3⟩
      · rintro ⟨e, he | he, h1, h2, h3⟩
        · subst he; exact absurd h1 (by simpa using hv)
        · exact ⟨e, he, h1, h2, h3⟩

theorem mergeKeyed_spec (valid : α → Bool) (key : α → Option Str)
    (A B : List α) :
    (mergeKeyed valid key A B).take A.length = A ∧
    (∀ k, k ∈ (mergeKeyed valid key A B).filterMap key ↔
      (k ∈ A.filterMap key ∨
        ∃ e ∈ B, valid e = true ∧ key e = some k ∧ k ∉ A.filterMap key)) := by
  constructor
  · rw [mergeKeyed]; exact List.take_left A _
  · intro k
    rw [mergeKeyed, List.filterMap_append, List.mem_append, mergeGo_keys]

/-- C1: `merge_dictionaries(A, B)` begins with every entry of `A` unchanged
and in order, and the resulting set of source-term keys is exactly the keys
of `A` together with the source terms of the valid entries of `B` whose
source term is not already a key of `A`.  This holds for the JP→ZH merge of
script 2 and the EN→ZH merge of script 6 alike. -/
theorem C1_merge_preserves_original_and_key_set :
    ∀ (A B : List TransEntry) (A6 B6 : List EnEntry),
      (merge_dictionaries A B).take A.length = A ∧
      (∀ k, k ∈ (merge_dictionaries A B).filterMap (fun e => e.jp) ↔
        (k ∈ A.filterMap (fun e => e.jp) ∨
          ∃ e ∈ B, validate_translation_entry e = true ∧ e.jp = some k ∧
            k ∉ A.filterMap (fun e => e.jp))) ∧
      (merge_dictionaries_en A6 B6).take A6.length = A6 ∧
      (∀ k, k ∈ (merge_dictionaries_en A6 B6).filterMap (fun e => e.en) ↔
        (k ∈ A6.filterMap (fun e => e.en) ∨
          ∃ e ∈ B6, validate_translation_entry_en e = true ∧ e.en = some k ∧
            k ∉ A6.filterMap (fun e => e.en))) := by
  intro A B A6 B6
  obtain ⟨h1, h2⟩ := mergeKeyed_spec validate_translation_entry (fun e => e.jp) A B
  obtain ⟨h3, h4⟩ := mergeKeyed_spec validate_translation_entry_en (fun e => e.en) A6 B6
  exact ⟨h1, h2, h3, h4⟩

/-! ## Claim C6: retry loop of `call_grok_api` -/

/-- C6: with `max_retries = 3`, the translation client raises only after
three consecutive failed attempts; if the first success is attempt `k`, the
sleeps performed are exactly `2^1, …, 2^k` (each retry `k ≥ 1` is preceded
by a backoff of `2^k`) and the raw response is returned; on exhaustion the
sleeps are `[2, 4]`. -/
theorem C6_call_grok_api_retries :
    ∀ (oc : Nat → Option Str),
      ((call_grok_api oc 3).2 = none ↔ (oc 0 = none ∧ oc 1 = none ∧ oc 2 = none))
      ∧ (∀ k t, k < 3 → (∀ j, j < k → oc j = none) → oc k = some t →
          call_grok_api oc 3 = ((List.range k).map (fun j => 2 ^ (j + 1)), some t))
      ∧ ((∀ j, j < 3 → oc j = none) → call_grok_api oc 3 = ([2, 4], none)) := by
  intro oc
  refine ⟨?_, ?_, ?_⟩
  · cases h0 : oc 0 with
    | some t0 => simp [call_grok_api, callLoop, h0]
    | none =>
      cases h1 : oc 1 with
      | some t1 => simp [call_grok_api, callLoop, h0, h1]
      | none =>
        cases h2 : oc 2 with
        | some t2 => simp [call_grok_api, callLoop, h0, h1, h2]
        | none => simp [call_grok_api, callLoop, h0, h1, h2]
  · intro k t hk hbefore hsucc
    interval_cases k
    · simp [call_grok_api, callLoop, hsucc]
    · have h0 := hbefore 0 (by omega)
      simp [call_grok_api, callLoop, h0, hsucc, List.range_succ]
    · have h0 := hbefore 0 (by omega)
      have h1 := hbefore 1 (by omega)
      simp [call_grok_api, callLoop, h0, h1, hsucc, List.range_succ]
  · intro hall
    have h0 := hall 0 (by omega)
    have h1 := hall 1 (by omega)
    have h2 := hall 2 (by omega)
    simp [call_grok_api, callLoop, h0, h1, h2]

/-- Witness for C6: with a transport failure on attempt 0 and a success on
attempt 1, the client sleeps `2^1` once and returns the response. -/
theorem C6_call_grok_api_retries_witness :
    call_grok_api (fun k => if k = 1 then some ['o', 'k'] else none) 3 =
      ([2], some ['o', 'k']) := by
  have h := (C6_call_grok_api_retries
    (fun k => if k = 1 then some ['o', 'k'] else none)).2.1 1 ['o', 'k']
    (by omega) (by intro j hj; interval_cases j; simp) (by simp)
  simpa using h

/-! ## Claim C8: sentinel identity `-1` is excluded everywhere -/

/-- C8: a batch line whose extracted identity is the sentinel `-1`
contributes to neither counter and is never written: the reinsertion loop
is unchanged when all sentinel items are removed, a single sentinel step is
the identity, and the refusal/transport failed-count already ignores
sentinels. -/
theorem C8_sentinel_lines_excluded :
    (∀ (lineMap : Int → Option Str) (batch : List (Nat × Str × Int)) (lines : List Str),
      reinsertBatch lineMap (batch.filter (fun it => decide (it.2.2 ≠ -1))) lines =
        reinsertBatch lineMap batch lines)
    ∧ (∀ (lineMap : Int → Option Str) (st : List Str × Nat × Nat) (idx : Nat) (l : Str),
        reinsertStep lineMap st (idx, l, -1) = st)
    ∧ (∀ nums : List Int,
        batchFailedCount nums = batchFailedCount (nums.filter (fun i => decide (i ≠ -1)))) := by
  refine ⟨?_, ?_, ?_⟩
  · intro lineMap batch lines
    rw [reinsertBatch, reinsertBatch]
    generalize (lines, 0, 0) = st
    induction batch generalizing st with
    | nil => simp
    | cons it rest ih =>
      by_cases h : it.2.2 = -1
      · rw [List.filter_cons_of_neg (by simpa using h)]
        rw [List.foldl_cons, ih]
        congr 1
        simp [reinsertStep, h]
      · rw [List.filter_cons_of_pos (by simpa using h)]
        rw [List.foldl_cons, List.foldl_cons, ih]
  · intro lineMap st idx l
    simp [reinsertStep]
  · intro nums
    simp [batchFailedCount, List.filter_filter]

/-! ## Claim C9: duplicate identity tokens — the last parsed unit wins -/

theorem lookupLast_eq_last_binding (l : List (Int × Str)) (n : Int) :
    lookupLast l n = (l.reverse.find? (fun p => p.1 == n)).map Prod.snd := by
  induction l using List.reverseRecOn with
  | nil => simp [lookupLast]
  | append_singleton front p ih =>
    rw [lookupLast, List.foldl_append]
    simp only [List.foldl_cons, List.foldl_nil, List.reverse_append,
      List.reverse_cons, List.reverse_nil, List.nil_append, List.cons_append,
      List.find?]
    by_cases hp : p.1 = n
    · simp [hp]
    · simp only [show (p.1 == n) = false by simpa using hp, if_neg hp]
      exact ih

/-- C9: the `line_translation_map` built from the parsed translated content
binds each identity token to the **last** `<p data-line=…>…</p>` unit with
that token in the response text; earlier duplicates are discarded. -/
theorem C9_duplicate_tokens_last_wins :
    ∀ (content : Str) (n : Int),
      lookupLast (buildLineMap content) n =
        ((buildLineMap content).reverse.find? (fun p => p.1 == n)).map Prod.snd := by
  intro content n
  exact lookupLast_eq_last_binding (buildLineMap content) n

/-! ## Claim C4: refusal short-circuits the batch -/

/-- C4: whenever the refusal detector fires on a response, the batch is
recorded as entirely failed (every non-sentinel line), the response parser
is never consulted (the outcome is the same for every parser), no glossary
mutation occurs (both dictionaries are returned unchanged), and the
document is untouched. -/
theorem C4_refusal_short_circuits :
    ∀ (parse : Str → List TransEntry × List SoundEntry × Str) (resp : Str)
      (batch : List (Nat × Str × Int)) (lines : List Str)
      (tdict : List TransEntry) (sdict : List SoundEntry),
      is_refusal_response resp = true →
      handleResponse parse resp batch lines tdict sdict =
        (tdict, sdict, lines, 0,
          batchFailedCount (batch.map (fun it => it.2.2)), true) := by
  intro parse resp batch lines tdict sdict h
  simp [handleResponse, h]

/-- Witness for C4 at a concrete refusal response. -/
theorem C4_refusal_short_circuits_witness :
    is_refusal_response ("I cannot assist with that request.".data) = true ∧
    handleResponse (fun _ => ([⟨some ['x'], some ['y']⟩], [], []))
      ("I cannot assist with that request.".data)
      [(0, ['a'], 1), (1, ['b'], -1)] [['a'], ['b']] [] [] =
      ([], [], [['a'], ['b']], 0, 1, true) := by
  constructor
  · decide
  · rw [C4_refusal_short_circuits _ _ _ _ _ _ (by decide)]
    decide

/-! ## Claim C5: terminal status of the file orchestrator -/

/-- C5: when the document is read successfully and at least one line needs
translation, the per-file state machine always ends `completed` after the
batch loop — the batch events are universally quantified, so this includes
the run in which every batch (hence every translatable line) fails, which
the caller reports as partial via a positive failed count — and the
terminal status `failed` is reached only when reading the document fails
(`readRes = none`). -/
theorem C5_terminal_status :
    ∀ (parse : Str → List TransEntry × List SoundEntry × Str)
      (events : Nat → BatchEvent) (bs : Nat)
      (tdict : List TransEntry) (sdict : List SoundEntry),
      (∀ lines, get_translation_lines lines ≠ [] →
        (processFileModel parse events (some lines) bs tdict sdict).1 = .completed)
      ∧ (∀ readRes, (processFileModel parse events readRes bs tdict sdict).1 = .failed →
          readRes = none) := by
  intro parse events bs tdict sdict
  constructor
  · intro lines h
    have hlen : (get_translation_lines lines).length ≠ 0 := by
      simpa [List.length_eq_zero] using h
    simp [processFileModel, hlen]
  · intro readRes h
    cases readRes with
    | none => rfl
    | some lines =>
      by_cases hlen : (get_translation_lines lines).length = 0
      · simp [processFileModel, hlen] at h
      · simp [processFileModel, hlen] at h

/-- Witness for C5: a one-line document whose single line needs translation
ends `completed` even though its only batch fails at the transport layer. -/
theorem C5_terminal_status_witness :
    get_translation_lines [("<p data-line=\"1\">hello</p>\n".data)] ≠ [] ∧
    (processFileModel (fun _ => ([], [], [])) (fun _ => BatchEvent.callFail)
      (some [("<p data-line=\"1\">hello</p>\n".data)]) 20 [] []).1 = .completed := by
  refine ⟨by decide, ?_⟩
  exact (C5_terminal_status (fun _ => ([], [], [])) (fun _ => BatchEvent.callFail)
    20 [] []).1 [("<p data-line=\"1\">hello</p>\n".data)] (by decide)

/-! ## Claim C2: frame of the reinsertion loop -/

/-- A batch item that causes a write into the document: non-sentinel
identity, present in the map, and not blank after normalization. -/
def writesItem (lineMap : Int → Option Str) (it : Nat × Str × Int) : Prop :=
  it.2.2 ≠ -1 ∧ ∃ t, lineMap it.2.2 = some t ∧
    (pyStrip (normalize_data_line_attribute t)).isEmpty = false

theorem reinsertStep_length (lineMap : Int → Option Str)
    (st : List Str × Nat × Nat) (it : Nat × Str × Int) :
    (reinsertStep lineMap st it).1.length = st.1.length := by
  rw [reinsertStep]
  by_cases h1 : it.2.2 = -1
  · simp [h1]
  · simp only [h1, if_false]
    cases hm : lineMap it.2.2 with
    | none => rfl
    | some t =>
      by_cases hb : (pyStrip (normalize_data_line_attribute t)).isEmpty
      · simp [hb]
      · simp only [hb, Bool.false_eq_true, if_false]
        by_cases hr : contains_japanese (extract_text_from_tags (finalLine t)) ||
            contains_english (extract_text_from_tags (finalLine t))
        · simp [hr, List.length_set]
        · simp [hr, List.length_set]

theorem reinsertStep_frame (lineMap : Int → Option Str)
    (st : List Str × Nat × Nat) (it : Nat × Str × Int) (j : Nat)
    (h : writesItem lineMap it → it.1 ≠ j) :
    (reinsertStep lineMap st it).1.get? j = st.1.get? j := by
  rw [reinsertStep]
  by_cases h1 : it.2.2 = -1
  · simp [h1]
  · simp only [h1, if_false]
    cases hm : lineMap it.2.2 with
    | none => rfl
    | some t =>
      by_cases hb : (pyStrip (normalize_data_line_attribute t)).isEmpty
      · simp [hb]
      · have hw : writesItem lineMap it := ⟨h1, t, hm, by simpa using hb⟩
        have hne : it.1 ≠ j := h hw
        simp only [hb, Bool.false_eq_true, if_false]
        by_cases hr : contains_japanese (extract_text_from_tags (finalLine t)) ||
            contains_english (extract_text_from_tags (finalLine t))
        · simp [hr, List.getElem?_set_ne hne]
        · simp [hr, List.getElem?_set_ne hne]

/-- C2 (amended): reinsertion never changes the number of lines; a position
written by no batch item keeps its content; a line missing from the
translated map, or whose normalized markup is blank, is counted failed and
left untouched; **but** a line whose translated payload still contains
source-language text is counted failed *and still written* (this is where
the original claim fails, see the counterexample). -/
theorem C2_reinsertion_frame :
    (∀ (lineMap : Int → Option Str) (batch : List (Nat × Str × Int)) (lines : List Str),
      (reinsertBatch lineMap batch lines).1.length = lines.length)
    ∧ (∀ (lineMap : Int → Option Str) (batch : List (Nat × Str × Int))
        (lines : List Str) (j : Nat),
        (∀ it ∈ batch, writesItem lineMap it → it.1 ≠ j) →
        (reinsertBatch lineMap batch lines).1.get? j = lines.get? j)
    ∧ (∀ (lineMap : Int → Option Str) (st : List Str × Nat × Nat)
        (it : Nat × Str × Int), it.2.2 ≠ -1 → lineMap it.2.2 = none →
        reinsertStep lineMap st it = (st.1, st.2.1, st.2.2 + 1))
    ∧ (∀ (lineMap : Int → Option Str) (st : List Str × Nat × Nat)
        (it : Nat × Str × Int) (t : Str), it.2.2 ≠ -1 → lineMap it.2.2 = some t →
        (pyStrip (normalize_data_line_attribute t)).isEmpty = true →
        reinsertStep lineMap st it = (st.1, st.2.1, st.2.2 + 1))
    ∧ (∀ (lineMap : Int → Option Str) (st : List Str × Nat × Nat)
        (it : Nat × Str × Int) (t : Str), it.2.2 ≠ -1 → lineMap it.2.2 = some t →
        (pyStrip (normalize_data_line_attribute t)).isEmpty = false →
        (contains_japanese (extract_text_from_tags (finalLine t)) ||
          contains_english (extract_text_from_tags (finalLine t))) = true →
        reinsertStep lineMap st it = (st.1.set it.1 (finalLine t), st.2.1, st.2.2 + 1)) := by
  refine ⟨?_, ?_, ?_, ?_, ?_⟩
  · intro lineMap batch lines
    rw [reinsertBatch]
    generalize hst : (lines, 0, 0) = st
    have : st.1.length = lines.length := by rw [← hst]
    rw [← this]
    clear hst this
    induction batch generalizing st with
    | nil => simp
    | cons it rest ih =>
      rw [List.foldl_cons, ih (reinsertStep lineMap st it)]
      exact reinsertStep_length lineMap st it
  · intro lineMap batch lines j h
    rw [reinsertBatch]
    generalize hst : (lines, 0, 0) = st
    have : st.1.get? j = lines.get? j := by rw [← hst]
    rw [← this]
    clear hst this
    induction batch generalizing st with
    | nil => simp
    | cons it rest ih =>
      rw [List.foldl_cons,
        ih (fun x hx => h x (List.mem_cons_of_mem _ hx)) (reinsertStep lineMap st it)]
      exact reinsertStep_frame lineMap st it j (h it (List.mem_cons_self _ _))
  · intro lineMap st it h1 hm
    rw [reinsertStep]
    simp [h1, hm]
  · intro lineMap st it t h1 hm hb
    rw [reinsertStep]
    simp [h1, hm, hb]
  · intro lineMap st it t h1 hm hb hr
    rw [reinsertStep]
    simp [h1, hm, hb, hr]

/-- Witness for C2 (amended): at a concrete batch, an identity missing from
the map leaves the document untouched, and the single-step missing-map case
counts one failure. -/
theorem C2_reinsertion_frame_witness :
    (reinsertBatch (fun _ => none) [(0, ['x'], 5)] [['y']]).1.get? 0 = some ['y']
    ∧ reinsertStep (fun _ => none) ([['y']], 0, 0) (0, ['x'], 5) = ([['y']], 0, 1) := by
  constructor
  · refine C2_reinsertion_frame.2.1 (fun _ => none) [(0, ['x'], 5)] [['y']] 0 ?_
    intro it hit hw
    rcases hw with ⟨-, t, hmap, -⟩
    simp at hmap
  · exact C2_reinsertion_frame.2.2.1 (fun _ => none) ([['y']], 0, 0) (0, ['x'], 5)
      (by decide) rfl

/-- Counterexample to C2 as stated: the translated unit for identity 1
still contains Japanese, so the line is counted failed (success 0,
failed 1), yet its markup in the document **is** replaced. -/
theorem C2_counterexample :
    reinsertBatch
        (fun n => if n = 1 then some ("<p data-line=\"1\">まだ日本語</p>".data) else none)
        [(0, "<p data-line=\"1\">こんにちは</p>\n".data, 1)]
        ["<p data-line=\"1\">こんにちは</p>\n".data] =
      (["<p data-line=\"1\">まだ日本語</p>\n".data], 0, 1)
    ∧ ("<p data-line=\"1\">まだ日本語</p>\n".data : Str) ≠
        "<p data-line=\"1\">こんにちは</p>\n".data := by
  constructor
  · decide
  · decide

/-! ## Machinery for `normalize_data_line_attribute` (claims C7, C10)

Structural facts about one anchored match of `DATA_LINE_ATTR_PATTERN` and
about the scanning substitution built on it.
-/

/-- Characters that can appear inside a `DATA_LINE_ATTR_PATTERN` match. -/
def isAttrChar (c : Char) : Bool :=
  decide (lowerChar c ∈ litDataLine) || isPySpace c || c = '=' || c = '\\' ||
    isQuote c || isAsciiDigit c

theorem matchLit_decomp {ps s r : Str} (h : matchLit ps s = some r) :
    ∃ m, s = m ++ r ∧ m.length = ps.length ∧
      List.Forall₂ (fun p c => ciEq p c = true) ps m := by
  induction ps generalizing s with
  | nil =>
    rw [matchLit] at h
    exact ⟨[], by simpa using h, rfl, List.Forall₂.nil⟩
  | cons p ps ih =>
    match s with
    | [] => simp [matchLit] at h
    | c :: cs =>
      rw [matchLit] at h
      by_cases hc : ciEq p c
      · simp only [hc, if_true] at h
        obtain ⟨m, hm1, hm2, hm3⟩ := ih h
        exact ⟨c :: m, by simp [hm1], by simp [hm2], List.Forall₂.cons hc hm3⟩
      · simp [hc] at h

theorem dropOptQuote_decomp (s : Str) :
    ∃ q, s = q ++ dropOptQuote s ∧ ∀ c ∈ q, c = '\\' ∨ isQuote c = true := by
  match s with
  | [] => exact ⟨[], rfl, by simp⟩
  | [c] =>
    by_cases hq : isQuote c
    · exact ⟨[c], by simp [dropOptQuote, hq], by
        intro x hx; simp at hx; subst hx; exact Or.inr hq⟩
    · exact ⟨[], by simp [dropOptQuote, hq], by simp⟩
  | c :: c2 :: rest2 =>
    by_cases hc : c = '\\'
    · subst hc
      by_cases h2 : isQuote c2
      · exact ⟨['\\', c2], by simp [dropOptQuote, h2], by
          intro x hx
          simp at hx
          rcases hx with rfl | rfl
          · exact Or.inl rfl
          · exact Or.inr h2⟩
      · exact ⟨[], by simp [dropOptQuote, h2], by simp⟩
    · by_cases hq : isQuote c
      · exact ⟨[c], by simp [dropOptQuote, hc, hq], by
          intro x hx; simp at hx; subst hx; exact Or.inr hq⟩
      · exact ⟨[], by simp [dropOptQuote, hc, hq], by simp⟩

theorem lowerChar_mem_lit_of_ciEq {p c : Char} (hp : p ∈ litDataLine)
    (h : ciEq p c = true) : lowerChar c ∈ litDataLine := by
  have hlp : lowerChar p = p := by
    simp only [litDataLine, List.mem_cons, List.not_mem_nil, or_false] at hp
    rcases hp with rfl | rfl | rfl | rfl | rfl | rfl | rfl | rfl | rfl <;> decide
  rw [ciEq, decide_eq_true_eq] at h
  rw [← h, hlp]
  exact hp

theorem forall₂_mem_right {R : α → β → Prop} :
    ∀ {l1 : List α} {l2 : List β}, List.Forall₂ R l1 l2 →
      ∀ b ∈ l2, ∃ a ∈ l1, R a b := by
  intro l1 l2 h
  induction h with
  | nil => simp
  | cons hR _ ih =>
    intro b hb
    rcases List.mem_cons.mp hb with hb | hb
    · exact ⟨_, List.mem_cons_self _ _, hb ▸ hR⟩
    · obtain ⟨a, ha, hr⟩ := ih b hb
      exact ⟨a, List.mem_cons_of_mem _ ha, hr⟩

/-- Full decomposition of an anchored `DATA_LINE_ATTR_PATTERN` match. -/
theorem matchAt_decomp {s d r : Str} (h : matchAt s = some (d, r)) :
    ∃ m, s = m ++ r ∧ d ≠ [] ∧ (∀ c ∈ d, isAsciiDigit c = true) ∧
      (∀ c ∈ m, isAttrChar c = true) ∧
      (∃ c m', m = c :: m' ∧ lowerChar c = 'd') := by
  rw [matchAt] at h
  split at h
  · exact absurd h (by simp)
  · next s1 hlit =>
    obtain ⟨m0, hs, hlen0, hfa⟩ := matchLit_decomp hlit
    split at h
    · exact absurd h (by simp)
    · next e s3 hdw =>
      by_cases he : e = '='
      · subst he
        rw [if_pos rfl] at h
        simp only at h
        by_cases hd0 : ((dropOptQuote (s3.dropWhile isPySpace)).takeWhile
            isAsciiDigit).isEmpty
        · rw [if_pos hd0] at h; exact absurd h (by simp)
        · rw [if_neg hd0] at h
          simp only [Option.some.injEq, Prod.mk.injEq] at h
          obtain ⟨hdd, hrr⟩ := h
          obtain ⟨q2, hq2, hq2c⟩ :=
            dropOptQuote_decomp ((dropOptQuote (s3.dropWhile isPySpace)).dropWhile
              isAsciiDigit)
          obtain ⟨q1, hq1, hq1c⟩ := dropOptQuote_decomp (s3.dropWhile isPySpace)
          have hsp1 : s1 = s1.takeWhile isPySpace ++ ('=' :: s3) := by
            conv_lhs => rw [← List.takeWhile_append_dropWhile (p := isPySpace) (l := s1)]
            rw [hdw]
          have hsp2 : s3 = s3.takeWhile isPySpace ++ s3.dropWhile isPySpace :=
            (List.takeWhile_append_dropWhile _ _).symm
          have hs5d : dropOptQuote (s3.dropWhile isPySpace) =
              d ++ (dropOptQuote (s3.dropWhile isPySpace)).dropWhile isAsciiDigit := by
            conv_lhs => rw [← List.takeWhile_append_dropWhile (p := isAsciiDigit)
              (l := dropOptQuote (s3.dropWhile isPySpace))]
            rw [hdd]
          refine ⟨m0 ++ (s1.takeWhile isPySpace ++ ('=' :: (s3.takeWhile isPySpace ++
            (q1 ++ (d ++ q2))))), ?_, ?_, ?_, ?_, ?_⟩
          · rw [hs, ← hrr]
            conv_lhs => rw [hsp1]
            conv_lhs => rw [hsp2]
            conv_lhs => rw [hq1]
            conv_lhs => rw [hs5d]
            conv_lhs => rw [hq2]
            simp
          · intro hnil; rw [hnil] at hdd
            exact hd0 (by rw [hdd]; rfl)
          · intro c hc; rw [← hdd] at hc; exact List.mem_takeWhile_imp hc
          · intro c hc
            simp only [List.mem_append, List.mem_cons] at hc
            rcases hc with hc | hc | hc | hc
            · obtain ⟨p, hp, hpc⟩ := forall₂_mem_right hfa c hc
              rw [isAttrChar]
              simp only [Bool.or_eq_true, decide_eq_true_eq]
              exact Or.inl (Or.inl (Or.inl (Or.inl (Or.inl
                (lowerChar_mem_lit_of_ciEq hp hpc)))))
            · simp [isAttrChar, List.mem_takeWhile_imp hc]
            · subst hc; decide
            · rcases hc with hc | hc | hc | hc
              · simp [isAttrChar, List.mem_takeWhile_imp hc]
              · rcases hq1c c hc with h | h
                · subst h; decide
                · simp [isAttrChar, h]
              · have hcd : isAsciiDigit c := by
                  rw [← hdd] at hc; exact List.mem_takeWhile_imp hc
                simp [isAttrChar, hcd]
              · rcases hq2c c hc with h | h
                · subst h; decide
                · simp [isAttrChar, h]
          · cases hfa with
            | cons hpc htail =>
              refine ⟨_, _, rfl, ?_⟩
              rw [ciEq, decide_eq_true_eq] at hpc
              rw [← hpc]; decide
      · rw [if_neg he] at h
        exact absurd h (by simp)

theorem matchAt_consumes {s d r : Str} (h : matchAt s = some (d, r)) :
    r.length < s.length := by
  obtain ⟨m, hs, -, -, -, c, m', hm, -⟩ := matchAt_decomp h
  subst hs; subst hm; simp; omega

theorem matchAt_nil : matchAt [] = none := by rfl

theorem findMatch_spec {s p d t : Str} (h : findMatch s = some (p, d, t)) :
    (∃ x, s = p ++ x ∧ matchAt x = some (d, t)) ∧
      (∀ i < p.length, matchAt (s.drop i) = none) := by
  induction s generalizing p with
  | nil => simp [findMatch] at h
  | cons c rest ih =>
    rw [findMatch] at h
    cases hma : matchAt (c :: rest) with
    | some pr =>
      obtain ⟨d0, t0⟩ := pr
      rw [hma] at h
      simp only [Option.some.injEq, Prod.mk.injEq] at h
      obtain ⟨hp, hd, ht⟩ := h
      subst hp; subst hd; subst ht
      refine ⟨⟨c :: rest, rfl, hma⟩, ?_⟩
      intro i hi; simp at hi
    | none =>
      rw [hma] at h
      cases hfm : findMatch rest with
      | none => rw [hfm] at h; exact absurd h (by simp)
      | some ptr =>
        obtain ⟨p', d', t'⟩ := ptr
        rw [hfm] at h
        simp only [Option.some.injEq, Prod.mk.injEq] at h
        obtain ⟨hp, hd, ht⟩ := h
        subst hd; subst ht
        obtain ⟨⟨x, hx1, hx2⟩, hnone⟩ := ih hfm
        subst hp
        refine ⟨⟨x, by rw [hx1, List.cons_append], hx2⟩, ?_⟩
        intro i hi
        cases i with
        | zero => simpa using hma
        | succ j =>
          simp only [List.drop_succ_cons]
          exact hnone j (by simpa using hi)

theorem findMatch_len {s p d t : Str} (h : findMatch s = some (p, d, t)) :
    t.length < s.length := by
  obtain ⟨⟨x, hx1, hx2⟩, -⟩ := findMatch_spec h
  have := matchAt_consumes hx2
  subst hx1; simp; omega

theorem normAuxF_congr :
    ∀ (n : Nat) (f1 f2 : Nat) (s : Str), s.length ≤ n →
      s.length ≤ f1 → s.length ≤ f2 → normAuxF f1 s = normAuxF f2 s := by
  intro n
  induction n with
  | zero =>
    intro f1 f2 s hn h1 h2
    have : s = [] := by
      cases s with
      | nil => rfl
      | cons c r => simp at hn
    subst this
    cases f1 <;> cases f2 <;> simp [normAuxF, findMatch]
  | succ k ih =>
    intro f1 f2 s hn h1 h2
    cases hfm : findMatch s with
    | none =>
      cases f1 <;> cases f2 <;> simp [normAuxF, hfm]
    | some pdt =>
      obtain ⟨p, d, t⟩ := pdt
      have hlt := findMatch_len hfm
      cases f1 with
      | zero =>
        have : s = [] := by cases s with
          | nil => rfl
          | cons c r => simp at h1
        subst this; simp [findMatch] at hfm
      | succ f1' =>
        cases f2 with
        | zero =>
          have : s = [] := by cases s with
            | nil => rfl
            | cons c r => simp at h2
          subst this; simp [findMatch] at hfm
        | succ f2' =>
          simp only [normAuxF, hfm]
          have ht : t.length ≤ k := by omega
          rw [ih f1' f2' t ht (by omega) (by omega)]

/-- The defining recurrence of `normalize_data_line_attribute`. -/
theorem normalize_unfold (s : Str) :
    normalize_data_line_attribute s =
      match findMatch s with
      | none => s
      | some (p, d, t) => p ++ canonicalAttr d ++ normalize_data_line_attribute t := by
  rw [normalize_data_line_attribute]
  cases hfm : findMatch s with
  | none =>
    cases s with
    | nil => rfl
    | cons c r => simp only [List.length_cons, normAuxF, hfm]
  | some pdt =>
    obtain ⟨p, d, t⟩ := pdt
    have hlt := findMatch_len hfm
    cases s with
    | nil => simp [findMatch] at hfm
    | cons c r =>
      simp only [List.length_cons, normAuxF, hfm]
      rw [normalize_data_line_attribute]
      rw [normAuxF_congr t.length r.length t.length t le_rfl
        (by simp at hlt; omega) le_rfl]

theorem takeWhile_append_stop {p : Char → Bool} {d : Str} (q : Char) (t : Str)
    (hd : ∀ c ∈ d, p c = true) (hq : p q = false) :
    (d ++ q :: t).takeWhile p = d ∧ (d ++ q :: t).dropWhile p = q :: t := by
  induction d with
  | nil => simp [List.takeWhile_cons, List.dropWhile_cons, hq]
  | cons c d' ih =>
    have hc : p c = true := hd c (List.mem_cons_self _ _)
    have := ih (fun x hx => hd x (List.mem_cons_of_mem _ hx))
    simp [List.takeWhile_cons, List.dropWhile_cons, hc, this.1, this.2]

theorem matchLit_lit_append (rest : Str) :
    matchLit litDataLine (litDataLine ++ rest) = some rest := rfl

theorem matchAt_canonical {d : Str} (t : Str) (hne : d ≠ [])
    (hdig : ∀ c ∈ d, isAsciiDigit c = true) :
    matchAt (canonicalAttr d ++ t) = some (d, t) := by
  obtain ⟨dc, d', rfl⟩ : ∃ dc d', d = dc :: d' := by
    cases d with
    | nil => exact absurd rfl hne
    | cons a b => exact ⟨a, b, rfl⟩
  have hshape : canonicalAttr (dc :: d') ++ t =
      litDataLine ++ ('=' :: '"' :: (dc :: (d' ++ '"' :: t))) := by
    simp [canonicalAttr]
  have h1 : ('=' :: '"' :: (dc :: (d' ++ '"' :: t))).dropWhile isPySpace =
      '=' :: '"' :: (dc :: (d' ++ '"' :: t)) := rfl
  have h2 : ('"' :: (dc :: (d' ++ '"' :: t))).dropWhile isPySpace =
      '"' :: (dc :: (d' ++ '"' :: t)) := rfl
  have h3 : dropOptQuote ('"' :: (dc :: (d' ++ '"' :: t))) =
      dc :: (d' ++ '"' :: t) := rfl
  have hstop := takeWhile_append_stop (p := isAsciiDigit) (d := dc :: d') '"' t
    hdig (by decide)
  have hd1 : (dc :: (d' ++ '"' :: t)).takeWhile isAsciiDigit = dc :: d' := by
    have hsh : dc :: (d' ++ '"' :: t) = (dc :: d') ++ '"' :: t := by simp
    rw [hsh]; exact hstop.1
  have hd2 : (dc :: (d' ++ '"' :: t)).dropWhile isAsciiDigit = '"' :: t := by
    have hsh : dc :: (d' ++ '"' :: t) = (dc :: d') ++ '"' :: t := by simp
    rw [hsh]; exact hstop.2
  have h4 : dropOptQuote ('"' :: t) = t := by
    cases t with
    | nil => rfl
    | cons c2 t2 => rfl
  rw [hshape]
  simp only [matchAt, matchLit_lit_append, h1, h2, h3, hd1, hd2, h4,
    List.isEmpty_cons, if_true, Bool.false_eq_true, if_false, if_pos rfl]

/-! ### Transport: replacing the text after a given position by other text
that also starts with a `d`-character cannot change whether the attribute
pattern matches at that position. -/

/-- The strings that can follow an unmatched position: they start with a
(case-insensitive) `d`, the only character the pattern can begin with. -/
def dHead (x : Str) : Prop := ∃ c x', x = c :: x' ∧ lowerChar c = 'd'

theorem lowerChar_eq_d {c : Char} (h : lowerChar c = 'd') : c = 'd' ∨ c = 'D' := by
  rw [lowerChar] at h
  by_cases hr : 65 ≤ c.toNat ∧ c.toNat ≤ 90
  · rw [if_pos (by simp [hr.1, hr.2])] at h
    right
    have hv : (Char.ofNat (c.toNat + 32)).toNat = c.toNat + 32 := by
      rw [Char.ofNat, dif_pos (Or.inl (by omega : c.toNat + 32 < 0xD800))]
      rw [Char.ofNatAux, Char.toNat]
      simp [UInt32.toNat]
    rw [h] at hv
    have hc : c.toNat = 68 := by
      have hd : ('d' : Char).toNat = 100 := by decide
      omega
    have hval : c.val = ('D' : Char).val := by
      apply UInt32.ext
      simpa [Char.toNat] using hc
    exact Char.eq_of_val_eq hval
  · rw [if_neg (by simp; omega)] at h
    exact Or.inl h

/-- Character-class facts about a `d`-character. -/
theorem dChar_class {c : Char} (h : lowerChar c = 'd') :
    isPySpace c = false ∧ c ≠ '=' ∧ c ≠ '\\' ∧ isQuote c = false ∧
      isAsciiDigit c = false := by
  rcases lowerChar_eq_d h with rfl | rfl <;> exact by decide

theorem matchLit_append_long {ps u : Str} (x : Str) (h : ps.length ≤ u.length) :
    matchLit ps (u ++ x) = (matchLit ps u).map (· ++ x) := by
  induction ps generalizing u with
  | nil => simp [matchLit]
  | cons p ps ih =>
    cases u with
    | nil => simp at h
    | cons c u' =>
      simp only [List.cons_append, matchLit]
      by_cases hc : ciEq p c
      · simp only [hc, if_true]
        exact ih (by simpa using h)
      · simp [hc]

theorem matchLit_boundary :
    ∀ (ps u : Str) (cx : Char) (x' : Str),
      u.length < ps.length → ciEq (ps.getD u.length ' ') cx = false →
      matchLit ps (u ++ cx :: x') = none := by
  intro ps u
  induction u generalizing ps with
  | nil =>
    intro cx x' hlen hci
    cases ps with
    | nil => simp at hlen
    | cons p ps' =>
      have hci' : ciEq p cx = false := by simpa [List.getD] using hci
      simp [matchLit, hci']
  | cons c u' ih =>
    intro cx x' hlen hci
    cases ps with
    | nil => simp at hlen
    | cons p ps' =>
      simp only [List.cons_append, matchLit]
      by_cases hc : ciEq p c
      · simp only [hc, if_true]
        exact ih ps' cx x' (by simpa using hlen) (by simpa using hci)
      · simp [hc]

theorem dropWhile_append_boundary {p : Char → Bool} {cx : Char}
    (hpx : p cx = false) (x' : Str) :
    ∀ w, (w ++ cx :: x').dropWhile p = w.dropWhile p ++ cx :: x' := by
  intro w
  induction w with
  | nil => simp [List.dropWhile_cons, hpx]
  | cons c w2 ih =>
    by_cases hc : p c
    · simp [List.dropWhile_cons, hc, ih]
    · simp [List.dropWhile_cons, hc]

theorem takeWhile_append_boundary {p : Char → Bool} {cx : Char}
    (hpx : p cx = false) (x' : Str) :
    ∀ w, (w ++ cx :: x').takeWhile p = w.takeWhile p := by
  intro w
  induction w with
  | nil => simp [List.takeWhile_cons, hpx]
  | cons c w2 ih =>
    by_cases hc : p c
    · simp [List.takeWhile_cons, hc, ih]
    · simp [List.takeWhile_cons, hc]

theorem dropOptQuote_align {cx cy : Char} (x' y' : Str)
    (hbx : cx ≠ '\\') (hqx : isQuote cx = false)
    (hby : cy ≠ '\\') (hqy : isQuote cy = false) :
    ∀ v, ∃ v', dropOptQuote (v ++ cx :: x') = v' ++ cx :: x' ∧
      dropOptQuote (v ++ cy :: y') = v' ++ cy :: y' := by
  intro v
  match v with
  | [] =>
    refine ⟨[], ?_, ?_⟩
    · cases x' with
      | nil => simp [dropOptQuote, hqx]
      | cons a b => simp [dropOptQuote, hbx, hqx]
    · cases y' with
      | nil => simp [dropOptQuote, hqy]
      | cons a b => simp [dropOptQuote, hby, hqy]
  | [c] =>
    by_cases hc : c = '\\'
    · exact ⟨[c], by simp [dropOptQuote, hc, hqx], by simp [dropOptQuote, hc, hqy]⟩
    · by_cases hq : isQuote c
      · exact ⟨[], by simp [dropOptQuote, hc, hq], by simp [dropOptQuote, hc, hq]⟩
      · exact ⟨[c], by simp [dropOptQuote, hc, hq], by simp [dropOptQuote, hc, hq]⟩
  | c :: c2 :: rest =>
    by_cases hc : c = '\\'
    · by_cases hq2 : isQuote c2
      · exact ⟨rest, by simp [dropOptQuote, hc, hq2], by simp [dropOptQuote, hc, hq2]⟩
      · exact ⟨c :: c2 :: rest, by simp [dropOptQuote, hc, hq2],
          by simp [dropOptQuote, hc, hq2]⟩
    · by_cases hq : isQuote c
      · exact ⟨c2 :: rest, by simp [dropOptQuote, hc, hq], by simp [dropOptQuote, hc, hq]⟩
      · exact ⟨c :: c2 :: rest, by simp [dropOptQuote, hc, hq],
          by simp [dropOptQuote, hc, hq]⟩

/-- The attribute pattern after its literal head. -/
def matchAfterLit (s1 : Str) : Option (Str × Str) :=
  match s1.dropWhile isPySpace with
  | [] => none
  | e :: s3 =>
    if e = '=' then
      let s5 := dropOptQuote (s3.dropWhile isPySpace)
      let d := s5.takeWhile isAsciiDigit
      if d.isEmpty then none
      else some (d, dropOptQuote (s5.dropWhile isAsciiDigit))
    else none

theorem matchAt_eq_bind (s : Str) :
    matchAt s = (matchLit litDataLine s).bind matchAfterLit := by
  rw [matchAt]
  cases matchLit litDataLine s <;> rfl

theorem matchAfterLit_transport {cx cy : Char} {x' y' : Str}
    (hcx : lowerChar cx = 'd') (hcy : lowerChar cy = 'd') (w : Str) :
    (matchAfterLit (w ++ cx :: x')).isSome =
      (matchAfterLit (w ++ cy :: y')).isSome := by
  obtain ⟨hsx, hex, hbx, hqx, hdx⟩ := dChar_class hcx
  obtain ⟨hsy, hey, hby, hqy, hdy⟩ := dChar_class hcy
  rw [matchAfterLit, matchAfterLit,
    dropWhile_append_boundary hsx x' w, dropWhile_append_boundary hsy y' w]
  cases hwd : w.dropWhile isPySpace with
  | nil =>
    simp only [List.nil_append]
    simp [hex, hey]
  | cons e w3 =>
    simp only [List.cons_append]
    by_cases he : e = '='
    · subst he
      simp only [if_pos rfl]
      rw [dropWhile_append_boundary hsx x' w3, dropWhile_append_boundary hsy y' w3]
      obtain ⟨v', hvx, hvy⟩ := dropOptQuote_align x' y' hbx hqx hby hqy
        (w3.dropWhile isPySpace)
      rw [hvx, hvy,
        takeWhile_append_boundary hdx x' v', takeWhile_append_boundary hdy y' v']
      by_cases hD : (v'.takeWhile isAsciiDigit).isEmpty
      · simp [hD]
      · simp [hD]
    · simp [he]

theorem matchAt_transport {u x y : Str} (hu : u ≠ []) (hx : dHead x) (hy : dHead y) :
    (matchAt (u ++ x)).isSome = (matchAt (u ++ y)).isSome := by
  obtain ⟨cx, x', rfl, hcx⟩ := hx
  obtain ⟨cy, y', rfl, hcy⟩ := hy
  rw [matchAt_eq_bind, matchAt_eq_bind]
  by_cases hlen : litDataLine.length ≤ u.length
  · rw [matchLit_append_long _ hlen, matchLit_append_long _ hlen]
    cases hml : matchLit litDataLine u with
    | none => rfl
    | some w =>
      simp only [Option.map_some', Option.some_bind]
      exact matchAfterLit_transport hcx hcy w
  · push_neg at hlen
    have hgd : ∀ c : Char, lowerChar c = 'd' →
        ciEq (litDataLine.getD u.length ' ') c = false := by
      intro c hc
      have h1 : 1 ≤ u.length := by
        cases u with
        | nil => exact absurd rfl hu
        | cons a b => simp
      have h2 : u.length < 9 := by simpa [litDataLine] using hlen
      have hcases : u.length = 1 ∨ u.length = 2 ∨ u.length = 3 ∨ u.length = 4 ∨
          u.length = 5 ∨ u.length = 6 ∨ u.length = 7 ∨ u.length = 8 := by omega
      obtain rfl | rfl := lowerChar_eq_d hc <;>
        rcases hcases with h | h | h | h | h | h | h | h <;> rw [h] <;> decide
    rw [matchLit_boundary litDataLine u cx x' hlen (hgd cx hcx),
      matchLit_boundary litDataLine u cy y' hlen (hgd cy hcy)]

theorem matchAt_dHead {x d t : Str} (h : matchAt x = some (d, t)) : dHead x := by
  obtain ⟨m, hs, -, -, -, c, m', hm, hc⟩ := matchAt_decomp h
  subst hm
  exact ⟨c, m' ++ t, by rw [hs, List.cons_append], hc⟩

theorem findMatch_build {z p d r : Str} (hz : matchAt z = some (d, r))
    (hn : ∀ i < p.length, matchAt ((p ++ z).drop i) = none) :
    findMatch (p ++ z) = some (p, d, r) := by
  induction p with
  | nil =>
    cases z with
    | nil => rw [matchAt_nil] at hz; exact absurd hz (by simp)
    | cons c rest => simp only [List.nil_append, findMatch, hz]
  | cons c p' ih =>
    have h0 : matchAt (c :: (p' ++ z)) = none := by
      have := hn 0 (by simp)
      simpa using this
    rw [List.cons_append, findMatch, h0]
    rw [ih (fun i hi => by
      have := hn (i + 1) (by simpa using Nat.succ_lt_succ hi)
      simpa using this)]

theorem dHead_canonical (d X : Str) : dHead (canonicalAttr d ++ X) :=
  ⟨'d', ('a' :: 't' :: 'a' :: '-' :: 'l' :: 'i' :: 'n' :: 'e' ::
    ('=' :: '"' :: (d ++ ['"']))) ++ X, by simp [canonicalAttr, litDataLine], by decide⟩

/-- Idempotence of the normalization pass. -/
theorem normalize_idem (s : Str) :
    normalize_data_line_attribute (normalize_data_line_attribute s) =
      normalize_data_line_attribute s := by
  suffices H : ∀ (n : Nat) (s : Str), s.length ≤ n →
      normalize_data_line_attribute (normalize_data_line_attribute s) =
        normalize_data_line_attribute s from H s.length s le_rfl
  intro n
  induction n with
  | zero =>
    intro s hs
    have : s = [] := by
      cases s with
      | nil => rfl
      | cons c r => simp at hs
    subst this
    rfl
  | succ k ih =>
    intro s hs
    have hu := normalize_unfold s
    cases hfm : findMatch s with
    | none =>
      rw [hfm] at hu
      rw [hu]
      exact hu
    | some pdt =>
      obtain ⟨p, d, t⟩ := pdt
      rw [hfm] at hu
      simp only at hu
      have hlt := findMatch_len hfm
      have hXt : normalize_data_line_attribute (normalize_data_line_attribute t) =
          normalize_data_line_attribute t := ih t (by omega)
      obtain ⟨⟨x, hx1, hx2⟩, hnone⟩ := findMatch_spec hfm
      obtain ⟨m, -, hdne, hdig, -, -⟩ := matchAt_decomp hx2
      have hdx : dHead x := matchAt_dHead hx2
      set X := normalize_data_line_attribute t with hX
      have hcanon : matchAt (canonicalAttr d ++ X) = some (d, X) :=
        matchAt_canonical X hdne hdig
      have hkey : findMatch (p ++ (canonicalAttr d ++ X)) = some (p, d, X) := by
        refine findMatch_build hcanon ?_
        intro i hi
        rw [List.drop_append_of_le_length (le_of_lt hi)]
        have htrans := matchAt_transport
          (u := p.drop i) (x := x) (y := canonicalAttr d ++ X)
          (by
            intro hnil
            have : p.length - i = 0 := by
              have := congrArg List.length hnil
              simpa using this
            omega)
          hdx (dHead_canonical d X)
        have hno : matchAt (p.drop i ++ x) = none := by
          have := hnone i hi
          rw [hx1, List.drop_append_of_le_length (le_of_lt hi)] at this
          exact this
        rw [hno] at htrans
        exact Option.not_isSome_iff_eq_none.mp (by rw [← htrans]; simp)
      have hu2 := normalize_unfold (p ++ (canonicalAttr d ++ X))
      rw [hkey] at hu2
      simp only at hu2
      rw [hXt] at hu2
      rw [hu]
      have hassoc : p ++ canonicalAttr d ++ X = p ++ (canonicalAttr d ++ X) := by
        simp [List.append_assoc]
      rw [hassoc, hu2]
      exact hassoc

/-! ### The quoting variants accepted by the tolerant pattern -/

/-- The five ways `(?:\\?["\x27])?` can be instantiated. -/
def QuoteOpt (q : Str) : Prop :=
  q = [] ∨ q = ['"'] ∨ q = [apos] ∨ q = ['\\', '"'] ∨ q = ['\\', apos]

theorem char_eq_of_toNat {c : Char} {n : Nat} (hv : n < 0xD800)
    (h : c.toNat = n) : c = Char.ofNat n := by
  apply Char.eq_of_val_eq
  apply UInt32.ext
  rw [Char.ofNat, dif_pos (Or.inl hv), Char.ofNatAux]
  rw [Char.toNat] at h
  simpa [UInt32.toNat] using h

theorem digit_enum {c : Char} (h : isAsciiDigit c = true) :
    c = '0' ∨ c = '1' ∨ c = '2' ∨ c = '3' ∨ c = '4' ∨ c = '5' ∨ c = '6' ∨
      c = '7' ∨ c = '8' ∨ c = '9' := by
  rw [isAsciiDigit, Bool.and_eq_true, decide_eq_true_eq, decide_eq_true_eq] at h
  obtain ⟨hl, hr⟩ := h
  have h1 : 48 ≤ c.toNat := hl
  have h2 : c.toNat ≤ 57 := hr
  have hn : c.toNat = 48 ∨ c.toNat = 49 ∨ c.toNat = 50 ∨ c.toNat = 51 ∨
      c.toNat = 52 ∨ c.toNat = 53 ∨ c.toNat = 54 ∨ c.toNat = 55 ∨
      c.toNat = 56 ∨ c.toNat = 57 := by omega
  rcases hn with h | h | h | h | h | h | h | h | h | h <;>
    [left; (right; left); (right; right; left); (right; right; right; left);
     (right; right; right; right; left);
     (right; right; right; right; right; left);
     (right; right; right; right; right; right; left);
     (right; right; right; right; right; right; right; left);
     (right; right; right; right; right; right; right; right; left);
     (right; right; right; right; right; right; right; right; right)] <;>
    · rw [char_eq_of_toNat (by omega) h]

theorem digit_class {c : Char} (h : isAsciiDigit c = true) :
    isPySpace c = false ∧ isQuote c = false ∧ c ≠ '\\' ∧ c ≠ '=' := by
  rcases digit_enum h with rfl | rfl | rfl | rfl | rfl | rfl | rfl | rfl | rfl | rfl <;>
    exact ⟨by decide, by decide, by decide, by decide⟩

theorem dropOptQuote_no {c : Char} (rest : Str) (hb : c ≠ '\\')
    (hq : isQuote c = false) : dropOptQuote (c :: rest) = c :: rest := by
  cases rest with
  | nil => simp [dropOptQuote, hq]
  | cons a b => simp [dropOptQuote, hb, hq]

theorem dropOptQuote_quote {c : Char} (rest : Str) (hq : isQuote c = true) :
    dropOptQuote (c :: rest) = rest := by
  cases rest with
  | nil =>
    have hb : c ≠ '\\' := by
      intro h; subst h; exact absurd hq (by decide)
    simp [dropOptQuote, hq]
  | cons a b =>
    have hb : c ≠ '\\' := by
      intro h; subst h; exact absurd hq (by decide)
    simp [dropOptQuote, hb, hq]

theorem dropOptQuote_bs {c2 : Char} (rest : Str) (hq : isQuote c2 = true) :
    dropOptQuote ('\\' :: c2 :: rest) = rest := by
  simp [dropOptQuote, hq]

theorem takeWhile_all {p : Char → Bool} {d : Str} (h : ∀ c ∈ d, p c = true) :
    d.takeWhile p = d ∧ d.dropWhile p = [] := by
  induction d with
  | nil => simp
  | cons c d' ih =>
    have hc := h c (List.mem_cons_self _ _)
    have := ih (fun x hx => h x (List.mem_cons_of_mem _ hx))
    simp [List.takeWhile_cons, List.dropWhile_cons, hc, this.1, this.2]

/-- Any quoting variant of the attribute normalizes to the canonical
double-quoted form. -/
theorem normalize_variant {ws1 ws2 q1 q2 D : Str}
    (h1 : ∀ c ∈ ws1, isPySpace c = true) (h2 : ∀ c ∈ ws2, isPySpace c = true)
    (hq1 : QuoteOpt q1) (hq2 : QuoteOpt q2)
    (hD : D ≠ []) (hdig : ∀ c ∈ D, isAsciiDigit c = true) :
    normalize_data_line_attribute
        (litDataLine ++ ws1 ++ '=' :: (ws2 ++ q1 ++ D ++ q2)) =
      canonicalAttr D := by
  obtain ⟨dc, D', rfl⟩ : ∃ dc D', D = dc :: D' := by
    cases D with
    | nil => exact absurd rfl hD
    | cons a b => exact ⟨a, b, rfl⟩
  obtain ⟨hdcs, hdcq, hdcb, hdce⟩ := digit_class (hdig dc (List.mem_cons_self _ _))
  -- the tail after the literal, in the nesting the pipeline produces
  have hAfter : matchAfterLit (ws1 ++ '=' :: (ws2 ++ (q1 ++ ((dc :: D') ++ q2)))) =
      some (dc :: D', []) := by
    rw [matchAfterLit]
    rw [(takeWhile_append_stop '=' _ h1 (by decide)).2]
    simp only [if_pos rfl]
    have hstop2 : (ws2 ++ (q1 ++ ((dc :: D') ++ q2))).dropWhile isPySpace =
        q1 ++ ((dc :: D') ++ q2) := by
      rcases hq1 with rfl | rfl | rfl | rfl | rfl
      · simpa using (takeWhile_append_stop dc (D' ++ q2) h2 hdcs).2
      · simpa using (takeWhile_append_stop '"' ((dc :: D') ++ q2) h2 (by decide)).2
      · simpa using (takeWhile_append_stop apos ((dc :: D') ++ q2) h2 (by decide)).2
      · simpa using (takeWhile_append_stop '\\' ('"' :: ((dc :: D') ++ q2)) h2
          (by decide)).2
      · simpa using (takeWhile_append_stop '\\' (apos :: ((dc :: D') ++ q2)) h2
          (by decide)).2
    rw [hstop2]
    have hoq : dropOptQuote (q1 ++ ((dc :: D') ++ q2)) = (dc :: D') ++ q2 := by
      rcases hq1 with rfl | rfl | rfl | rfl | rfl
      · simpa using dropOptQuote_no (D' ++ q2) hdcb hdcq
      · simpa using dropOptQuote_quote ((dc :: D') ++ q2) (by decide)
      · simpa using dropOptQuote_quote ((dc :: D') ++ q2) (by decide)
      · simpa using dropOptQuote_bs ((dc :: D') ++ q2) (by decide)
      · simpa using dropOptQuote_bs ((dc :: D') ++ q2) (by decide)
    rw [hoq]
    have hdigits : ((dc :: D') ++ q2).takeWhile isAsciiDigit = dc :: D' ∧
        ((dc :: D') ++ q2).dropWhile isAsciiDigit = q2 := by
      rcases hq2 with rfl | rfl | rfl | rfl | rfl
      · simpa using takeWhile_all hdig
      · exact takeWhile_append_stop '"' [] hdig (by decide)
      · exact takeWhile_append_stop apos [] hdig (by decide)
      · exact takeWhile_append_stop '\\' ['"'] hdig (by decide)
      · exact takeWhile_append_stop '\\' [apos] hdig (by decide)
    rw [hdigits.1, hdigits.2]
    have hq2e : dropOptQuote q2 = [] := by
      rcases hq2 with rfl | rfl | rfl | rfl | rfl
      · rfl
      · simpa using dropOptQuote_quote [] (by decide)
      · simpa using dropOptQuote_quote [] (by decide)
      · simpa using dropOptQuote_bs [] (by decide)
      · simpa using dropOptQuote_bs [] (by decide)
    simp [hq2e]
  have hmA : matchAt (litDataLine ++ (ws1 ++ '=' :: (ws2 ++ (q1 ++ ((dc :: D') ++ q2))))) =
      some (dc :: D', []) := by
    rw [matchAt_eq_bind, matchLit_lit_append, Option.some_bind]
    exact hAfter
  have hshape : litDataLine ++ ws1 ++ '=' :: (ws2 ++ q1 ++ (dc :: D') ++ q2) =
      litDataLine ++ (ws1 ++ '=' :: (ws2 ++ (q1 ++ ((dc :: D') ++ q2)))) := by
    simp [List.append_assoc]
  rw [hshape]
  have hfm : findMatch (litDataLine ++ (ws1 ++ '=' :: (ws2 ++ (q1 ++ ((dc :: D') ++ q2))))) =
      some ([], dc :: D', []) := by
    have := findMatch_build (p := []) hmA (by intro i hi; simp at hi)
    simpa using this
  rw [normalize_unfold, hfm]
  simp [normalize_data_line_attribute, normAuxF]

/-- C7: identity-attribute normalization is idempotent on **every** string,
and every whitespace/quoting variant accepted by the tolerant pattern
(optionally escaped double or single quotes around the digits) normalizes
to the canonical unescaped double-quote form `data-line="N"`. -/
theorem C7_normalize_idempotent_and_canonical :
    (∀ s : Str,
      normalize_data_line_attribute (normalize_data_line_attribute s) =
        normalize_data_line_attribute s)
    ∧ (∀ ws1 ws2 q1 q2 D : Str,
        (∀ c ∈ ws1, isPySpace c = true) → (∀ c ∈ ws2, isPySpace c = true) →
        QuoteOpt q1 → QuoteOpt q2 → D ≠ [] → (∀ c ∈ D, isAsciiDigit c = true) →
        normalize_data_line_attribute
            (litDataLine ++ ws1 ++ '=' :: (ws2 ++ q1 ++ D ++ q2)) =
          canonicalAttr D) :=
  ⟨normalize_idem, fun _ _ _ _ _ h1 h2 hq1 hq2 hD hdig =>
    normalize_variant h1 h2 hq1 hq2 hD hdig⟩

/-- Witness for C7: a concrete re-normalization is a fixed point, and the
escaped-single-quote variant `data-line = \x5c\x2742\x5c\x27` normalizes to
`data-line="42"`. -/
theorem C7_normalize_idempotent_and_canonical_witness :
    normalize_data_line_attribute
        (normalize_data_line_attribute ("a data-line=\"7\" b".data)) =
      normalize_data_line_attribute ("a data-line=\"7\" b".data)
    ∧ normalize_data_line_attribute
        (litDataLine ++ [' '] ++ '=' :: ([' '] ++ ['\\', apos] ++
          ['4', '2'] ++ ['\\', apos])) = canonicalAttr ['4', '2'] := by
  constructor
  · exact C7_normalize_idempotent_and_canonical.1 ("a data-line=\"7\" b".data)
  · exact C7_normalize_idempotent_and_canonical.2 [' '] [' ']
      ['\\', apos] ['\\', apos] ['4', '2']
      (by decide) (by decide)
      (by rw [QuoteOpt]; right; right; right; right; rfl)
      (by rw [QuoteOpt]; right; right; right; right; rfl)
      (by decide) (by decide)

/-! ## Machinery for claim C10: written lines end in exactly one newline -/

theorem closeHead_spec {l : Str} (h : closeHead l = true) :
    ∃ c r1 r2 u, l = c :: r1 :: r2 :: '>' :: u := by
  match l with
  | [] => simp [closeHead] at h
  | [a] => simp [closeHead] at h
  | [a, b] => simp [closeHead] at h
  | [a, b, c] => simp [closeHead] at h
  | a :: b :: c :: d :: u =>
    rw [closeHead, Bool.and_eq_true, Bool.and_eq_true, Bool.and_eq_true] at h
    obtain ⟨⟨⟨-, -⟩, -⟩, h4⟩ := h
    rw [decide_eq_true_eq] at h4
    exact ⟨a, b, c, u, by rw [h4]⟩

theorem splitAtCloseCi_close {l a cl b : Str}
    (h : splitAtCloseCi l = some (a, cl, b)) :
    cl.getLast? = some '>' ∧ cl ≠ [] := by
  induction l generalizing a cl b with
  | nil => simp [splitAtCloseCi] at h
  | cons c rest ih =>
    rw [splitAtCloseCi] at h
    by_cases hc : closeHead (c :: rest)
    · simp only [hc, if_true, Option.some.injEq, Prod.mk.injEq] at h
      obtain ⟨-, hcl, -⟩ := h
      obtain ⟨c', r1, r2, u, hl⟩ := closeHead_spec hc
      have : c :: rest = c' :: r1 :: r2 :: '>' :: u := hl
      rw [this] at hcl
      subst hcl
      constructor
      · rfl
      · simp
    · simp only [hc, if_false, Bool.false_eq_true, Option.map_eq_some'] at h
      obtain ⟨⟨x1, x2, x3⟩, hx, hh⟩ := h
      simp only [Prod.mk.injEq] at hh
      obtain ⟨-, h2, -⟩ := hh
      subst h2
      exact ih hx

theorem matchPTagAt_close {s d m after : Str}
    (h : matchPTagAt s = some (d, m, after)) : m.getLast? = some '>' := by
  match s with
  | [] => simp [matchPTagAt] at h
  | [c0] => simp [matchPTagAt] at h
  | c0 :: c1 :: t =>
    rw [matchPTagAt] at h
    by_cases hc : c0 = '<' && ciEq 'p' c1
    · simp only [hc, if_true] at h
      obtain ⟨g, u, content, close, aft, -, hsp, -, hm, -⟩ := matchPTagTail_spec h
      obtain ⟨hlast, hne⟩ := splitAtCloseCi_close hsp
      subst hm
      have hsh : c0 :: c1 :: ((t.takeWhile (· ≠ '>')) ++ g :: (content ++ close)) =
          (c0 :: c1 :: ((t.takeWhile (· ≠ '>')) ++ g :: content)) ++ close := by
        simp
      rw [hsh, List.getLast?_append_of_ne_nil _ hne]
      exact hlast
    · simp [hc] at h

theorem parseTagsF_last_gt :
    ∀ (fuel : Nat) (s : Str) (n : Int) (t : Str),
      (n, t) ∈ parseTagsF fuel s → t.getLast? = some '>' := by
  intro fuel
  induction fuel with
  | zero => intro s n t h; simp [parseTagsF] at h
  | succ f ih =>
    intro s n t h
    cases s with
    | nil => simp [parseTagsF] at h
    | cons c rest =>
      rw [parseTagsF] at h
      cases hm : matchPTagAt (c :: rest) with
      | none =>
        rw [hm] at h
        exact ih rest n t h
      | some dma =>
        obtain ⟨d, m, after⟩ := dma
        rw [hm] at h
        rcases List.mem_cons.mp h with heq | hmem
        · have hspec := matchPTagAt_close hm
          simp only [Prod.mk.injEq] at heq
          rw [heq.2]
          exact hspec
        · exact ih after n t hmem

theorem getLast_some_ne_nil {l : Str} {c : Char} (h : l.getLast? = some c) :
    l ≠ [] := by
  intro hn; subst hn; simp at h

/-- Normalization cannot touch a final `>`: no character of a
`DATA_LINE_ATTR_PATTERN` match is `>`. -/
theorem normalize_last_gt :
    ∀ s : Str, s.getLast? = some '>' →
      (normalize_data_line_attribute s).getLast? = some '>' := by
  suffices H : ∀ (n : Nat) (s : Str), s.length ≤ n → s.getLast? = some '>' →
      (normalize_data_line_attribute s).getLast? = some '>' by
    intro s h; exact H s.length s le_rfl h
  intro n
  induction n with
  | zero =>
    intro s hs hlast
    have : s = [] := by
      cases s with
      | nil => rfl
      | cons c r => simp at hs
    subst this; simp at hlast
  | succ k ih =>
    intro s hs hlast
    have hu := normalize_unfold s
    cases hfm : findMatch s with
    | none =>
      rw [hfm] at hu
      rw [hu]; exact hlast
    | some pdt =>
      obtain ⟨p, d, t⟩ := pdt
      rw [hfm] at hu
      simp only at hu
      have hlt := findMatch_len hfm
      obtain ⟨⟨x, hx1, hx2⟩, -⟩ := findMatch_spec hfm
      obtain ⟨m, hxm, -, -, hattr, c, m', hmc, -⟩ := matchAt_decomp hx2
      have hmne : m ≠ [] := by rw [hmc]; simp
      cases t with
      | nil =>
        exfalso
        rw [hx1, hxm, List.append_nil] at hlast
        rw [List.getLast?_append_of_ne_nil _ hmne] at hlast
        have h1 := hattr '>' (List.mem_of_mem_getLast? hlast)
        exact absurd h1 (by decide)
      | cons t0 ts =>
        have htne : (t0 :: ts : Str) ≠ [] := by simp
        have hlastt : (t0 :: ts : Str).getLast? = some '>' := by
          rw [hx1, hxm] at hlast
          rw [List.getLast?_append_of_ne_nil _ (by
            simp : (m ++ t0 :: ts : Str) ≠ []),
            List.getLast?_append_of_ne_nil _ htne] at hlast
          exact hlast
        have hnt := ih (t0 :: ts) (by simp at hlt hs ⊢; omega) hlastt
        rw [hu]
        have hne2 : normalize_data_line_attribute (t0 :: ts) ≠ [] :=
          getLast_some_ne_nil hnt
        rw [List.append_assoc, List.getLast?_append_of_ne_nil _ (by
          simp [hne2] : (canonicalAttr d ++
            normalize_data_line_attribute (t0 :: ts) : Str) ≠ []),
          List.getLast?_append_of_ne_nil _ hne2]
        exact hnt

theorem lookupLast_go_mem (l : List (Int × Str)) (n : Int) (v : Str) :
    ∀ acc : Option Str,
      l.foldl (fun acc p => if p.1 = n then some p.2 else acc) acc = some v →
      (n, v) ∈ l ∨ acc = some v := by
  induction l with
  | nil => intro acc h; exact Or.inr h
  | cons q rest ih =>
    intro acc h
    rw [List.foldl_cons] at h
    rcases ih _ h with hmem | hacc
    · exact Or.inl (List.mem_cons_of_mem _ hmem)
    · by_cases hq : q.1 = n
      · rw [if_pos hq] at hacc
        simp only [Option.some.injEq] at hacc
        left
        have hqv : q = (n, v) := by
          obtain ⟨q1, q2⟩ := q
          simp at hq hacc
          rw [hq, hacc]
        rw [← hqv]
        exact List.mem_cons_self _ _
      · rw [if_neg hq] at hacc
        exact Or.inr hacc

/-- Membership characterization of the dict lookup. -/
theorem lookupLast_mem {l : List (Int × Str)} {n : Int} {v : Str}
    (h : lookupLast l n = some v) : (n, v) ∈ l := by
  rw [lookupLast] at h
  exact (lookupLast_go_mem l n v none h).resolve_right (by simp)

theorem splitLinesGo_body {b : Str} (hnb : '\n' ∉ b) :
    ∀ (acc s : Str),
      splitLinesGo acc (b ++ '\n' :: s) =
        ((acc.reverse ++ b) ++ ['\n']) :: splitLinesGo [] s := by
  induction b with
  | nil => intro acc s; simp [splitLinesGo]
  | cons c b' ih =>
    intro acc s
    have hc : c ≠ '\n' := by
      intro h; exact hnb (h ▸ List.mem_cons_self _ _)
    have hnb' : '\n' ∉ b' := fun h => hnb (List.mem_cons_of_mem _ h)
    rw [List.cons_append, splitLinesGo, if_neg hc, ih hnb' (c :: acc) s]
    simp

theorem splitLines_join (L : List Str)
    (h : ∀ l ∈ L, ∃ b, l = b ++ ['\n'] ∧ '\n' ∉ b) :
    splitLines L.flatten = L := by
  induction L with
  | nil => rfl
  | cons l rest ih =>
    obtain ⟨b, hb, hnb⟩ := h l (List.mem_cons_self _ _)
    have hrest := ih (fun x hx => h x (List.mem_cons_of_mem _ hx))
    rw [hb, splitLines, List.flatten_cons]
    have hsh : (b ++ ['\n']) ++ rest.flatten = b ++ '\n' :: rest.flatten := by simp
    rw [hsh, splitLinesGo_body hnb [] rest.flatten]
    rw [show splitLinesGo ([] : Str) rest.flatten = splitLines rest.flatten from rfl,
      hrest]
    simp [hb]

/-- C10 (amended): every line value the reinsertion loop writes — the
normalized, newline-terminated form of a parsed `<p …>…</p>` unit — ends
with exactly one trailing newline (the unit itself ends in `>`, so the
single `\n` is always appended); and persisting the document as the
concatenation of its lines round-trips through a `readlines`-style split
**provided** no line contains an interior newline.  (The proviso is where
the original claim fails, see the counterexample.) -/
theorem C10_trailing_newline :
    (∀ (content : Str) (n : Int) (v : Str),
      lookupLast (buildLineMap content) n = some v →
      trailingCount '\n' (finalLine v) = 1)
    ∧ (∀ L : List Str, (∀ l ∈ L, ∃ b, l = b ++ ['\n'] ∧ '\n' ∉ b) →
        splitLines L.flatten = L) := by
  constructor
  · intro content n v h
    have hmem := lookupLast_mem h
    rw [buildLineMap] at hmem
    obtain ⟨⟨n', t⟩, hmem2, heq⟩ := List.mem_map.mp hmem
    simp only [Prod.mk.injEq] at heq
    have htgt : t.getLast? = some '>' :=
      parseTagsF_last_gt content.length content n' t hmem2
    have hv : v.getLast? = some '>' := by
      rw [← heq.2]
      exact normalize_last_gt t htgt
    have ht1 : (normalize_data_line_attribute v).getLast? = some '>' :=
      normalize_last_gt v hv
    rw [finalLine]
    rw [if_neg (by rw [ht1]; intro hcon; simp at hcon)]
    rw [trailingCount, List.reverse_append]
    obtain ⟨rt, hrt⟩ : ∃ rt, (normalize_data_line_attribute v).reverse = '>' :: rt := by
      cases hrev : (normalize_data_line_attribute v).reverse with
      | nil =>
        exfalso
        have := getLast_some_ne_nil ht1
        simp [List.reverse_eq_nil_iff] at hrev
        exact this hrev
      | cons a rt =>
        refine ⟨rt, ?_⟩
        have : (normalize_data_line_attribute v).getLast? = some a := by
          rw [← List.head?_reverse, hrev]; rfl
        rw [ht1] at this
        simp at this
        rw [← this]
    rw [hrt]
    rfl
  · exact splitLines_join

/-- Witness for C10 (amended) at a concrete parsed response. -/
theorem C10_trailing_newline_witness :
    trailingCount '\n'
        (finalLine ("<p data-line=\"1\">hi</p>".data)) = 1
    ∧ splitLines (["ab\n".data].flatten) = ["ab\n".data] := by
  constructor
  · exact C10_trailing_newline.1 ("<p data-line=\"1\">hi</p>".data) 1
      ("<p data-line=\"1\">hi</p>".data) (by decide)
  · refine C10_trailing_newline.2 ["ab\n".data] ?_
    intro l hl
    simp only [List.mem_singleton] at hl
    subst hl
    exact ⟨['a', 'b'], by decide, by decide⟩

/-- Counterexample to C10 as stated: the service may return a `<p …>…</p>`
unit with an embedded newline; the written line then has an interior
newline and the concatenate-then-reload cycle splits it into two document
lines, breaking the one-line-per-entry representation. -/
theorem C10_counterexample :
    lookupLast (buildLineMap ("<p data-line=\"1\">a\nb</p>".data)) 1 =
      some ("<p data-line=\"1\">a\nb</p>".data)
    ∧ splitLines ([finalLine ("<p data-line=\"1\">a\nb</p>".data)].flatten) ≠
        [finalLine ("<p data-line=\"1\">a\nb</p>".data)] := by
  constructor
  · decide
  · decide

/-! ## Machinery for claim C3: the relevance selector -/

theorem subperm_map (f : α → β) {l1 l2 : List α} (h : l1.Subperm l2) :
    (l1.map f).Subperm (l2.map f) := by
  obtain ⟨l, hperm, hsub⟩ := h
  exact ⟨l.map f, hperm.map f, hsub.map f⟩

theorem subperm_nodup {l1 l2 : List α} (h : l1.Subperm l2) (h2 : l2.Nodup) :
    l1.Nodup := by
  obtain ⟨l, hperm, hsub⟩ := h
  exact hperm.nodup_iff.mp (h2.sublist hsub)

theorem filter_sublist_of_imp {f p : α → Bool} (l : List α)
    (h : ∀ a, f a = true → p a = true) : (l.filter f).Sublist (l.filter p) := by
  induction l with
  | nil => simp
  | cons a l ih =>
    by_cases hf : f a
    · have hp := h a hf
      simp only [List.filter_cons, hf, hp, if_true]
      exact ih.cons₂ a
    · by_cases hp : p a
      · simp only [List.filter_cons, hf, hp, if_true, Bool.false_eq_true, if_false]
        exact ih.cons a
      · simp only [List.filter_cons, hf, hp, Bool.false_eq_true, if_false]
        exact ih

theorem valid_key_not_empty {e : TransEntry}
    (h : validate_translation_entry e = true) : (jpKeyOf e).isEmpty = false := by
  rw [validate_translation_entry] at h
  cases hj : e.jp with
  | none => rw [hj] at h; simp at h
  | some jp =>
    cases hz : e.zh with
    | none => rw [hj, hz] at h; simp at h
    | some zh =>
      rw [hj, hz] at h
      simp only [Bool.and_eq_true] at h
      obtain ⟨⟨⟨⟨hA, -⟩, -⟩, -⟩, -⟩ := h
      rw [jpKeyOf, hj]
      simpa using hA

theorem pass1_inv_go (bt br : Str) :
    ∀ (all : List TransEntry) (acc : List TransEntry × List Str),
      acc.1.map jpKeyOf = acc.2 → acc.2.Nodup →
      (all.foldl (pass1Step bt br) acc).1.map jpKeyOf =
        (all.foldl (pass1Step bt br) acc).2 ∧
      (all.foldl (pass1Step bt br) acc).2.Nodup := by
  intro all
  induction all with
  | nil => intro acc h1 h2; exact ⟨h1, h2⟩
  | cons e rest ih =>
    intro acc h1 h2
    rw [List.foldl_cons]
    have hstep : (pass1Step bt br acc e).1.map jpKeyOf = (pass1Step bt br acc e).2 ∧
        (pass1Step bt br acc e).2.Nodup := by
      rw [pass1Step]
      by_cases hv : validate_translation_entry e
      · simp only [hv, if_true]
        by_cases hskip : ((jpKeyOf e).isEmpty || decide (jpKeyOf e ∈ acc.2)) = true
        · simp only [hskip, if_true]
          exact ⟨h1, h2⟩
        · simp only [hskip, Bool.false_eq_true, if_false]
          by_cases hmatch : (subSearch (jpKeyOf e) bt || subSearch (jpKeyOf e) br) = true
          · simp only [hmatch, if_true]
            have hnotin : jpKeyOf e ∉ acc.2 := by
              intro hin
              exact hskip (by simp [hin])
            constructor
            · simp [h1]
            · exact List.Nodup.append h2 (by simp)
                (by intro a ha; simp; intro heq; rw [heq] at ha; exact hnotin ha)
          · simp only [hmatch, Bool.false_eq_true, if_false]
            exact ⟨h1, h2⟩
      · simp only [hv, Bool.false_eq_true, if_false]
        exact ⟨h1, h2⟩
    exact ih _ hstep.1 hstep.2

theorem pass1_inv (bt br : Str) (all : List TransEntry) :
    (pass1 bt br all).1.map jpKeyOf = (pass1 bt br all).2 ∧
      (pass1 bt br all).2.Nodup := by
  rw [pass1]
  exact pass1_inv_go bt br all ([], []) (by simp) (by simp)

theorem mem_pass2Remaining {seen : List Str} {all : List TransEntry}
    {e : TransEntry} (he : e ∈ all) (hv : validate_translation_entry e = true)
    (hns : jpKeyOf e ∉ seen) : e ∈ pass2Remaining seen all := by
  rw [pass2Remaining, List.mem_filter]
  refine ⟨he, ?_⟩
  simp [hv, valid_key_not_empty hv, hns]

theorem pass2Remaining_sublist (seen : List Str) (all : List TransEntry) :
    (pass2Remaining seen all).Sublist (all.filter validate_translation_entry) := by
  rw [pass2Remaining]
  exact filter_sublist_of_imp all (by
    intro a ha
    simp only [Bool.and_eq_true] at ha
    exact ha.1.1)

theorem pass2Remaining_key_not_seen {seen : List Str} {all : List TransEntry}
    {e : TransEntry} (he : e ∈ pass2Remaining seen all) : jpKeyOf e ∉ seen := by
  rw [pass2Remaining, List.mem_filter] at he
  have := he.2
  simp only [Bool.and_eq_true, Bool.not_eq_true', decide_eq_false_iff_not] at this
  exact this.2

theorem selectFrom_nodup (all : List TransEntry) (target : Nat)
    (sample : List TransEntry → Nat → List TransEntry) (bt br : Str)
    (hssub : ∀ l k, (sample l k).Subperm l)
    (hnd : ((all.filter validate_translation_entry).map jpKeyOf).Nodup) :
    ((selectFrom all target sample bt br).map jpKeyOf).Nodup := by
  obtain ⟨hI1, hI2⟩ := pass1_inv bt br all
  simp only [selectFrom]
  by_cases h1 : (pass1 bt br all).1.length < target
  · rw [if_pos h1]
    by_cases h2 : (pass2Remaining (pass1 bt br all).2 all).isEmpty = true
    · rw [if_pos h2]
      exact hI1 ▸ hI2
    · rw [if_neg h2]
      by_cases h3 : 0 < min (target - (pass1 bt br all).1.length)
          (pass2Remaining (pass1 bt br all).2 all).length
      · rw [if_pos h3, List.map_append]
        refine List.Nodup.append (hI1 ▸ hI2) ?_ ?_
        · exact subperm_nodup (subperm_map jpKeyOf (hssub _ _))
            (hnd.sublist ((pass2Remaining_sublist _ all).map jpKeyOf))
        · intro k hk1 hk2
          rw [hI1] at hk1
          obtain ⟨e, he, hke⟩ := List.mem_map.mp hk2
          have hrem : e ∈ pass2Remaining (pass1 bt br all).2 all :=
            (hssub _ _).subset he
          exact (hke ▸ pass2Remaining_key_not_seen hrem) hk1
      · rw [if_neg h3]
        exact hI1 ▸ hI2
  · rw [if_neg h1]
    exact hI1 ▸ hI2

theorem selectFrom_count (all : List TransEntry) (target : Nat)
    (sample : List TransEntry → Nat → List TransEntry) (bt br : Str)
    (hslen : ∀ l k, (sample l k).length = min k l.length) :
    min target (validCount all) ≤ (selectFrom all target sample bt br).length := by
  obtain ⟨hI1, hI2⟩ := pass1_inv bt br all
  have hseenlen : (pass1 bt br all).2.length = (pass1 bt br all).1.length := by
    rw [← hI1, List.length_map]
  have hcount : validCount all ≤ (pass1 bt br all).2.length +
      (pass2Remaining (pass1 bt br all).2 all).length := by
    have hsub2 : ((all.filter validate_translation_entry).map jpKeyOf).toFinset ⊆
        (pass1 bt br all).2.toFinset ∪
          ((pass2Remaining (pass1 bt br all).2 all).map jpKeyOf).toFinset := by
      intro k hk
      rw [List.mem_toFinset] at hk
      obtain ⟨e, he, hke⟩ := List.mem_map.mp hk
      rw [List.mem_filter] at he
      rw [Finset.mem_union, List.mem_toFinset, List.mem_toFinset]
      by_cases hks : k ∈ (pass1 bt br all).2
      · exact Or.inl hks
      · exact Or.inr (List.mem_map.mpr
          ⟨e, mem_pass2Remaining he.1 he.2 (hke ▸ hks), hke⟩)
    have hA : (pass1 bt br all).2.toFinset.card = (pass1 bt br all).2.length :=
      List.toFinset_card_of_nodup hI2
    have hB : ((pass2Remaining (pass1 bt br all).2 all).map jpKeyOf).toFinset.card ≤
        (pass2Remaining (pass1 bt br all).2 all).length := by
      calc ((pass2Remaining (pass1 bt br all).2 all).map jpKeyOf).toFinset.card
          ≤ ((pass2Remaining (pass1 bt br all).2 all).map jpKeyOf).length :=
            List.toFinset_card_le _
        _ = (pass2Remaining (pass1 bt br all).2 all).length := List.length_map _ _
    have hC : validCount all =
        ((all.filter validate_translation_entry).map jpKeyOf).toFinset.card :=
      (List.card_toFinset _).symm
    have hD := Finset.card_le_card hsub2
    have hE := Finset.card_union_le (pass1 bt br all).2.toFinset
      ((pass2Remaining (pass1 bt br all).2 all).map jpKeyOf).toFinset
    omega
  simp only [selectFrom]
  by_cases h1 : (pass1 bt br all).1.length < target
  · rw [if_pos h1]
    by_cases h2 : (pass2Remaining (pass1 bt br all).2 all).isEmpty = true
    · rw [if_pos h2]
      have hnil : pass2Remaining (pass1 bt br all).2 all = [] :=
        List.isEmpty_iff.mp h2
      rw [hnil] at hcount
      simp only [List.length_nil, Nat.add_zero] at hcount
      exact le_trans (min_le_right _ _) (by omega)
    · rw [if_neg h2]
      have hrempos : 0 < (pass2Remaining (pass1 bt br all).2 all).length := by
        cases hl : pass2Remaining (pass1 bt br all).2 all with
        | nil => rw [hl] at h2; simp at h2
        | cons a t => simp [hl]
      have hneed : 0 < min (target - (pass1 bt br all).1.length)
          (pass2Remaining (pass1 bt br all).2 all).length := by
        rw [lt_min_iff]
        exact ⟨by omega, hrempos⟩
      rw [if_pos hneed, List.length_append, hslen,
        min_eq_left (min_le_right (target - (pass1 bt br all).1.length)
          (pass2Remaining (pass1 bt br all).2 all).length)]
      rcases Nat.le_total (target - (pass1 bt br all).1.length)
          (pass2Remaining (pass1 bt br all).2 all).length with hc | hc
      · rw [min_eq_left hc]
        exact le_trans (min_le_left _ _) (by omega)
      · rw [min_eq_right hc]
        exact le_trans (min_le_right _ _) (by omega)
  · rw [if_neg h1]
    exact le_trans (min_le_left _ _) (Nat.le_of_not_lt h1)

theorem create_prompt_count (lines : List Str) (dict : List EnEntry)
    (shuffle : List EnEntry → List EnEntry)
    (pick : Nat → List EnEntry → EnEntry) :
    min 5 (validCountEn dict) ≤
      (create_prompt_selection lines dict shuffle pick).length := by
  simp only [create_prompt_selection]
  by_cases h5 : (lines.foldl
      (enPass1Step (dict.filter validate_translation_entry_en)) ([], [])).1.length < 5
  · rw [if_pos h5]
    by_cases hB : (dict.filter validate_translation_entry_en).isEmpty = true
    · rw [if_pos hB]
      rw [List.isEmpty_iff] at hB
      rw [validCountEn, hB]
      simp
    · rw [if_neg hB]
      rw [List.length_append, List.length_map, List.length_range]
      exact le_trans (min_le_left _ _) (by omega)
  · rw [if_neg h5]
    exact le_trans (min_le_left _ _) (Nat.le_of_not_lt h5)

/-- C3: amended. With `random.sample` drawing without replacement (length
`min k n`, subpermutation of the pool) and `random.shuffle` / `random.choice`
arbitrary, the count lower bound holds unconditionally for BOTH cited
selectors: the script-2 selector returns at least
`min target (number of distinct valid source terms)` entries, and the
script-6 selector at least `min 5 (number of distinct valid source terms)`
(its target is the hard-coded 5).  The no-duplicate half only holds for the
script-2 selector and only when no two valid glossary entries share a
stripped source term: with duplicate keys the second-pass pool keeps both
copies (first counterexample), and the script-6 selector pads with
`random.choice` WITH replacement, so it returns duplicates even for a
duplicate-free glossary (second counterexample). -/
theorem C3_selector_amended (batchLines : List Str) (all : List TransEntry)
    (target : Nat) (sample : List TransEntry → Nat → List TransEntry)
    (lines : List Str) (dict : List EnEntry)
    (shuffle : List EnEntry → List EnEntry)
    (pick : Nat → List EnEntry → EnEntry)
    (hslen : ∀ l k, (sample l k).length = min k l.length)
    (hssub : ∀ l k, (sample l k).Subperm l) :
    (min target (validCount all) ≤
        (select_relevant_translations batchLines all target sample).length)
    ∧ (((all.filter validate_translation_entry).map jpKeyOf).Nodup →
        ((select_relevant_translations batchLines all target sample).map
          jpKeyOf).Nodup)
    ∧ (min 5 (validCountEn dict) ≤
        (create_prompt_selection lines dict shuffle pick).length) := by
  refine ⟨?_, ?_, create_prompt_count lines dict shuffle pick⟩
  · rw [select_relevant_translations]
    by_cases hemp : all.isEmpty = true
    · rw [if_pos hemp]
      rw [List.isEmpty_iff] at hemp
      rw [validCount, hemp]
      simp
    · rw [if_neg hemp]
      exact selectFrom_count all target sample _ _ hslen
  · intro hnd
    rw [select_relevant_translations]
    by_cases hemp : all.isEmpty = true
    · rw [if_pos hemp]
      simp
    · rw [if_neg hemp]
      exact selectFrom_nodup all target sample _ _ hssub hnd

/-- Witness for C3 at singleton glossaries with deterministic sampler,
shuffle and choice. -/
theorem C3_selector_amended_witness :
    (min 5 (validCount [⟨some "アダム".data, some "亞當".data⟩]) ≤
        (select_relevant_translations [] [⟨some "アダム".data, some "亞當".data⟩] 5
            (fun l n => l.take n)).length)
    ∧ ((([⟨some "アダム".data, some "亞當".data⟩].filter
          validate_translation_entry).map jpKeyOf).Nodup →
        ((select_relevant_translations [] [⟨some "アダム".data, some "亞當".data⟩] 5
            (fun l n => l.take n)).map jpKeyOf).Nodup)
    ∧ (min 5 (validCountEn [⟨some "Adam".data, some "亞當".data⟩]) ≤
        (create_prompt_selection [] [⟨some "Adam".data, some "亞當".data⟩]
            (fun l => l) (fun _ l => l.headD ⟨none, none⟩)).length) :=
  C3_selector_amended [] [⟨some "アダム".data, some "亞當".data⟩] 5
    (fun l n => l.take n)
    [] [⟨some "Adam".data, some "亞當".data⟩]
    (fun l => l) (fun _ l => l.headD ⟨none, none⟩)
    (fun l k => List.length_take k l)
    (fun l k => (List.take_sublist k l).subperm)

/-- Counterexample to C3 as stated.  First: a script-2 glossary holding the
same valid entry twice makes the selector return the same source term twice
(the second pass samples from a pool that still holds both copies).
Second: the script-6 selector pads with `random.choice` WITH replacement,
so even a duplicate-free glossary with one valid entry yields the same
source term five times. -/
theorem C3_counterexample :
    (¬ ((select_relevant_translations []
        [⟨some "アダム".data, some "亞當".data⟩,
         ⟨some "アダム".data, some "亞當".data⟩] 5
        (fun l n => l.take n)).map jpKeyOf).Nodup)
    ∧ (¬ ((create_prompt_selection [] [⟨some "Adam".data, some "亞當".data⟩]
        (fun l => l) (fun _ l => l.headD ⟨none, none⟩)).map enKeyOf).Nodup) := by
  constructor
  · decide
  · decide

end Spec2Proof
